import Mathlib

/-!
Verification of the `devious_schema` package (`src/devious_schema/__init__.py`):
a JSON shape-inference engine (merge samples into a `TypeInfo` descriptor tree)
and a renderer that turns a descriptor tree into pydantic model source text.

The Python code is shallowly embedded: mutating functions become pure
functions threading the descriptor (and the accumulating `models` list),
fallible code returns `Except`.  Python runtime values are modelled by the
inductive `JValue`; the constructor `jbool` models Python booleans (which
satisfy `isinstance(_, int)`), and `jother` models any runtime value outside
the supported kinds (sets, bytes, ...), carrying the text Python's `type()`
would render for it.  String case transforms model the ASCII behaviour of
`str.lower` / `str.upper`, which covers every identifier in scope.
-/

/-- Embeds `to_snake_case`'s regex `re.sub(r"([a-z0-9])([A-Z])", r"\1_\2", text)`:
an underscore is inserted between each lowercase-or-digit character and an
immediately following uppercase character.  Consuming only one character per
step is equivalent to the regex's two-character consumption because an
uppercase character can never start a new match. -/
def snakeChars : List Char → List Char
  | [] => []
  | [c] => [c]
  | c :: d :: rest =>
    if (c.isLower || c.isDigit) && d.isUpper then c :: '_' :: snakeChars (d :: rest)
    else c :: snakeChars (d :: rest)

/-- Embeds `to_snake_case` (ASCII model of `str.lower`). -/
def to_snake_case (text : String) : String :=
  String.mk ((snakeChars text.data).map Char.toLower)

/-- Embeds `part[0].upper() + part[1:]` for a nonempty part. -/
def capitalizePart (part : String) : String :=
  match part.data with
  | [] => ""
  | c :: rest => String.mk (c.toUpper :: rest)

/-- Embeds `text.split("_")` at the character level: the list of maximal
(possibly empty) runs between underscores. -/
def splitUnd : List Char → List (List Char)
  | [] => [[]]
  | c :: rest =>
    match splitUnd rest with
    | [] => [[c]]
    | p :: ps => if c = '_' then [] :: p :: ps else (c :: p) :: ps

/-- Embeds `to_pascal_case`: split on underscores, drop empty parts,
capitalize the first character of each part, concatenate. -/
def to_pascal_case (text : String) : String :=
  String.join ((((splitUnd text.data).map String.mk).filter (fun p => p ≠ "")).map
    capitalizePart)

/-- The flat (non-recursive) fields of the Python `TypeInfo` pydantic model. -/
structure TIFlags where
  name : String := ""
  allow_str : Bool := false
  allow_int : Bool := false
  allow_float : Bool := false
  allow_none : Bool := false
  allow_dict : Bool := false
  allow_list : Bool := false
  optional : Bool := false
deriving Repr, DecidableEq

/-- Embeds the recursive `TypeInfo` model: flat flags plus the optional
`list_items` child and the insertion-ordered `dict_keys` mapping
(an association list, mirroring Python's insertion-ordered `dict`). -/
inductive TypeInfo : Type where
  | node (fl : TIFlags) (list_items : Option TypeInfo)
      (dict_keys : List (String × TypeInfo)) : TypeInfo

def TypeInfo.fl : TypeInfo → TIFlags
  | .node f _ _ => f

def TypeInfo.list_items : TypeInfo → Option TypeInfo
  | .node _ l _ => l

def TypeInfo.dict_keys : TypeInfo → List (String × TypeInfo)
  | .node _ _ d => d

def TypeInfo.name (t : TypeInfo) : String := t.fl.name

def TypeInfo.allow_str (t : TypeInfo) : Bool := t.fl.allow_str

def TypeInfo.allow_int (t : TypeInfo) : Bool := t.fl.allow_int

def TypeInfo.allow_float (t : TypeInfo) : Bool := t.fl.allow_float

def TypeInfo.allow_none (t : TypeInfo) : Bool := t.fl.allow_none

def TypeInfo.allow_dict (t : TypeInfo) : Bool := t.fl.allow_dict

def TypeInfo.allow_list (t : TypeInfo) : Bool := t.fl.allow_list

def TypeInfo.optional (t : TypeInfo) : Bool := t.fl.optional

/-- `TypeInfo(name=n)`: a fresh descriptor with all flags false. -/
def TypeInfo.mkNamed (n : String) : TypeInfo := .node { name := n } none []

/-- Update the flat fields through a function (models a single attribute
assignment on the Python object). -/
def TypeInfo.updFl (g : TIFlags → TIFlags) : TypeInfo → TypeInfo
  | .node f l d => .node (g f) l d

def TypeInfo.setStr (t : TypeInfo) : TypeInfo :=
  t.updFl (fun f => { f with allow_str := true })

def TypeInfo.setInt (t : TypeInfo) : TypeInfo :=
  t.updFl (fun f => { f with allow_int := true })

def TypeInfo.setFloat (t : TypeInfo) : TypeInfo :=
  t.updFl (fun f => { f with allow_float := true })

def TypeInfo.setNoneFlag (t : TypeInfo) : TypeInfo :=
  t.updFl (fun f => { f with allow_none := true })

def TypeInfo.setDict (t : TypeInfo) : TypeInfo :=
  t.updFl (fun f => { f with allow_dict := true })

def TypeInfo.setList (t : TypeInfo) : TypeInfo :=
  t.updFl (fun f => { f with allow_list := true })

def TypeInfo.setOptional (t : TypeInfo) : TypeInfo :=
  t.updFl (fun f => { f with optional := true })

def TypeInfo.setItems : TypeInfo → Option TypeInfo → TypeInfo
  | .node f _ d, li => .node f li d

def TypeInfo.setKeys : TypeInfo → List (String × TypeInfo) → TypeInfo
  | .node f l _, d => .node f l d

/-- Lookup in an association list, mirroring Python `dict` key lookup. -/
def lookupTI : List (String × TypeInfo) → String → Option TypeInfo
  | [], _ => none
  | (k, c) :: rest, key => if k = key then some c else lookupTI rest key

/-- Replace the value stored at an existing key, keeping its position
(mirrors assignment to an existing Python `dict` key). -/
def setTI : List (String × TypeInfo) → String → TypeInfo → List (String × TypeInfo)
  | [], _, _ => []
  | (k, c) :: rest, key, c' =>
    if k = key then (k, c') :: rest else (k, c) :: setTI rest key c'

/-- Embeds decoded Python runtime values reaching the merge engine.
`jbool` is separate because Python `bool` passes `isinstance(_, int)`;
`jother` stands for a value of an unsupported runtime kind and carries
the text `type(value)` would display. -/
inductive JValue : Type where
  | jstr (s : String)
  | jbool (b : Bool)
  | jint (n : Int)
  | jfloat
  | jnull
  | jdict (entries : List (String × JValue))
  | jlist (elems : List JValue)
  | jother (typeName : String)

/-- The Python exceptions the engine can raise. `unboundLocal v` models an
`UnboundLocalError` raised when evaluating a local variable `v` that has no
value on the executed path. -/
inductive PyError : Type where
  | typeError (msg : String)
  | unboundLocal (varName : String)
deriving Repr, DecidableEq

def PyError.isTypeError : PyError → Bool
  | .typeError _ => true
  | .unboundLocal _ => false

/-- The text `type(value)` renders for each modelled runtime kind. -/
def pyTypeName : JValue → String
  | .jstr _ => "<class 'str'>"
  | .jbool _ => "<class 'bool'>"
  | .jint _ => "<class 'int'>"
  | .jfloat => "<class 'float'>"
  | .jnull => "<class 'NoneType'>"
  | .jdict _ => "<class 'dict'>"
  | .jlist _ => "<class 'list'>"
  | .jother tn => tn

/-- Keys of the current sample, `input_data.keys()`. -/
def sampleKeys (entries : List (String × JValue)) : List String :=
  entries.map Prod.fst

/-- Embeds the final loop of `parse_dict`: every known key absent from the
current sample gets `optional = True`. -/
def markOptional (keys : List String) (d : List (String × TypeInfo)) :
    List (String × TypeInfo) :=
  d.map fun kc => (kc.1, if kc.1 ∈ keys then kc.2 else kc.2.setOptional)

mutual

/-- Embeds `_parse_value(value, target_type, key_name)`.  The `jother`
branch models the source's `else` arm: building the message
`f"Unexpected list item type: {type(x)}"` evaluates the loop variable `x`,
which is never assigned on this path, so Python raises `UnboundLocalError`
before any `TypeError` is constructed. -/
def parseValue (v : JValue) (t : TypeInfo) (key_name : String) :
    Except PyError TypeInfo :=
  match v with
  | .jstr _ => .ok t.setStr
  | .jbool _ => .ok t.setInt
  | .jint _ => .ok t.setInt
  | .jfloat => .ok t.setFloat
  | .jnull => .ok t.setNoneFlag
  | .jdict entries =>
    match parseDictLoop entries t.setDict with
    | .error e => .error e
    | .ok t1 => .ok (t1.setKeys (markOptional (sampleKeys entries) t1.dict_keys))
  | .jlist elems =>
    let c0 := match t.list_items with
      | some c => c
      | none =>
        TypeInfo.mkNamed
          (if key_name ≠ "" then key_name ++ "_item" else t.name ++ "Item")
    match parseItems elems c0 with
    | .error e => .error e
    | .ok c1 => .ok ((t.setList).setItems (some c1))
  | .jother _ => .error (.unboundLocal "x")
termination_by structural v

/-- Embeds the key loop of `parse_dict`: ensure a child exists for the key
(appending a fresh one named `{parent}{PascalCase(key)}`), then merge the
sample value into that child. -/
def parseDictLoop (entries : List (String × JValue)) (t : TypeInfo) :
    Except PyError TypeInfo :=
  match entries with
  | [] => .ok t
  | (k, v) :: rest =>
    let c0 := match lookupTI t.dict_keys k with
      | some c => c
      | none => TypeInfo.mkNamed (t.name ++ to_pascal_case k)
    match parseValue v c0 k with
    | .error e => .error e
    | .ok c1 =>
      let newKeys := if (lookupTI t.dict_keys k).isSome
        then setTI t.dict_keys k c1
        else t.dict_keys ++ [(k, c1)]
      parseDictLoop rest (t.setKeys newKeys)
termination_by structural entries

/-- Embeds `for x in value: _parse_value(x, target_type.list_items)`:
fold the shared element child over the elements. -/
def parseItems (elems : List JValue) (c : TypeInfo) : Except PyError TypeInfo :=
  match elems with
  | [] => .ok c
  | x :: rest =>
    match parseValue x c "" with
    | .error e => .error e
    | .ok c1 => parseItems rest c1
termination_by structural elems

end

/-- Embeds `parse_dict(input_data, type_info)`. -/
def parse_dict (input_data : List (String × JValue)) (t : TypeInfo) :
    Except PyError TypeInfo :=
  match parseDictLoop input_data t with
  | .error e => .error e
  | .ok t1 => .ok (t1.setKeys (markOptional (sampleKeys input_data) t1.dict_keys))

/-- Embeds `parse_list(input_data, type_info)`.  Note the source sets
`allow_list` only for an empty root list; a non-empty root list merges
elements into `list_items` without setting `allow_list`. -/
def parse_list (input_data : List JValue) (t : TypeInfo) :
    Except PyError TypeInfo :=
  if input_data.isEmpty then .ok t.setList
  else
    let c0 := match t.list_items with
      | some c => c
      | none => TypeInfo.mkNamed (t.name ++ "Item")
    match parseItems input_data c0 with
    | .error e => .error e
    | .ok c1 => .ok (t.setItems (some c1))

/-- Embeds `parse(input_data, type_info)`: dispatch on the runtime kind of
the root, raising `TypeError` for non-dict, non-list roots. -/
def parse (input_data : JValue) (t : TypeInfo) : Except PyError TypeInfo :=
  match input_data with
  | .jdict entries => parse_dict entries t
  | .jlist elems => parse_list elems t
  | v => .error (.typeError ("Unexpected input data type: " ++ pyTypeName v))

/-- Repeated `parse_dict` calls against one shared descriptor (how multiple
object samples accumulate in `get_schema_from_strings`). -/
def parse_dict_many (samples : List (List (String × JValue))) (t : TypeInfo) :
    Except PyError TypeInfo :=
  match samples with
  | [] => .ok t
  | s :: rest =>
    match parse_dict s t with
    | .error e => .error e
    | .ok t1 => parse_dict_many rest t1

/-- The two fixed header lines of `generate_dict_model`'s output. -/
def classHeader (model_name : String) : List String :=
  ("class " ++ to_pascal_case model_name ++ "(BaseModel):") ::
  ["    model_config = ConfigDict(extra=\"forbid\")"]

/-- The final three-way dispatch of `build_type_annotation`: zero collected
alternatives give "Any", one is returned bare, several are joined with
`" | "`. -/
def renderParts : List String → String
  | [] => "Any"
  | [p] => p
  | ps => String.intercalate " | " ps

mutual

/-- Embeds `build_type_annotation(type_info, models)` (renamed because the
source name would clash with this file's lexical conventions): returns the
annotation string and the updated `models` accumulator.  Python's
`if type_info.dict_keys:` truthiness test is non-emptiness; the
`generate_dict_model` call on the same node is inlined here (its body is a
plain wrapper around the field loop `genFields`, defined below) so recursion
is structural. -/
def build_type_annot : TypeInfo → List String → String × List String
  | .node fl li dk, models =>
    let parts0 : List String :=
      (if fl.allow_str then ["str"] else []) ++
      (if fl.allow_int then ["int"] else []) ++
      (if fl.allow_float then ["float"] else []) ++
      (if fl.allow_none || fl.optional then ["None"] else [])
    let pm : List String × List String :=
      if dk.isEmpty = false then
        let dict_class_name := to_pascal_case fl.name ++ "Dict"
        let gf := genFields dk models
        let dict_model :=
          String.intercalate "\n" (classHeader dict_class_name ++ gf.1)
        (parts0 ++ [dict_class_name], dict_model :: gf.2)
      else if fl.allow_dict then (parts0 ++ ["dict[str, Any]"], models)
      else (parts0, models)
    let lm : List String × List String :=
      match li with
      | some l =>
        let bl := build_type_annot l pm.2
        ([bl.1], bl.2)
      | none => if fl.allow_list then (["Any"], pm.2) else ([], pm.2)
    let parts :=
      if lm.1 ≠ [] then pm.1 ++ ["list[" ++ String.intercalate " | " lm.1 ++ "]"]
      else pm.1
    (renderParts parts, lm.2)
termination_by structural t => t

/-- Embeds the field loop of `generate_dict_model`: one source line per key,
in first-seen order, with a `Field(alias=...)` suffix when the snake_cased
identifier differs from the original key. -/
def genFields (ks : List (String × TypeInfo)) (models : List String) :
    List String × List String :=
  match ks with
  | [] => ([], models)
  | (field_name, c) :: rest =>
    let bf := build_type_annot c models
    let field_config :=
      if to_snake_case field_name ≠ field_name then
        " = Field(alias=\"" ++ field_name ++ "\")"
      else ""
    let line :=
      "    " ++ to_snake_case field_name ++ ": " ++ bf.1 ++ field_config
    let gr := genFields rest bf.2
    (line :: gr.1, gr.2)
termination_by structural ks

end

/-- Embeds `generate_dict_model(type_info, model_name, models)`: the class
header lines followed by one line per field, joined with newlines. -/
def generate_dict_model (t : TypeInfo) (model_name : String)
    (models : List String) : String × List String :=
  let gf := genFields t.dict_keys models
  (String.intercalate "\n" (classHeader model_name ++ gf.1), gf.2)

/-- Embeds `generate_pydantic_schema(type_info, class_name)`. -/
def generate_pydantic_schema (t : TypeInfo) (class_name : String) : String :=
  let imports :=
    ["from pydantic import BaseModel, Field, ConfigDict", "from typing import Any"]
  let models : List String := []
  let models :=
    if t.dict_keys.isEmpty = false && t.list_items.isSome then
      let gm := generate_dict_model t class_name models
      let bt := build_type_annot t gm.2
      bt.2 ++ [to_snake_case t.name ++ ": " ++ bt.1]
    else if t.list_items.isSome then
      let bt := build_type_annot t models
      bt.2 ++ [to_snake_case t.name ++ ": " ++ bt.1]
    else if t.dict_keys.isEmpty = false then
      let gm := generate_dict_model t class_name models
      gm.2 ++ [gm.1]
    else models
  String.intercalate "\n" imports ++ "\n\n\n" ++ String.intercalate "\n\n\n" models

/-- Embeds `get_schema(raw_data, root_name)`. -/
def get_schema (raw_data : JValue) (root_name : String) : Except PyError String :=
  match parse raw_data (TypeInfo.mkNamed root_name) with
  | .error e => .error e
  | .ok parsed => .ok (generate_pydantic_schema parsed root_name)

/-- The fixed header emitted by `generate_pydantic_schema` before any models. -/
def schemaHeader : String :=
  "from pydantic import BaseModel, Field, ConfigDict\nfrom typing import Any"

/-- C7: `get_schema` on the root array `[123, "abc"]` with root name "Root"
returns exactly the two fixed header lines, two blank lines, and the single
top-level binding `root: list[str | int]`, with no record-class definitions. -/
theorem c7_root_list_scenario :
    get_schema (.jlist [.jint 123, .jstr "abc"]) "Root" =
      .ok (schemaHeader ++ "\n\n\n" ++ "root: list[str | int]") := rfl

/-- C9: merging a Python boolean at any position succeeds and sets
`allow_int` on that position's descriptor (booleans pass `isinstance(_, int)`
and are recorded as the integer kind). -/
theorem c9_bool_sets_allow_int :
    ∀ (b : Bool) (t : TypeInfo) (k : String),
      parseValue (.jbool b) t k = .ok t.setInt ∧ (t.setInt).allow_int = true := by
  intro b t k
  refine ⟨rfl, ?_⟩
  cases t with
  | node f l d => rfl

/-- C2 (code bug evidence): for a runtime value of an unsupported kind the
merge does not raise the intended `TypeError`; evaluating the message
f-string dereferences the unassigned loop variable `x`, so the raised error
is an `UnboundLocalError` — never a `TypeError`. -/
theorem c2_unsupported_kind_unbound_local :
    (∀ (s : String) (t : TypeInfo) (k : String),
      parseValue (.jother s) t k = .error (.unboundLocal "x"))
    ∧ parse (.jdict [("k", .jother "<class 'set'>")]) (TypeInfo.mkNamed "Root") =
        .error (.unboundLocal "x")
    ∧ (PyError.unboundLocal "x").isTypeError = false := by
  refine ⟨fun s t k => rfl, rfl, rfl⟩

/-- C3 counterexample: at a nested position, merging the empty array `[]`
under key "k" does create a `list_items` child (a fresh descriptor named
"k_item"), contradicting the claim that `list_items` stays `None` at every
position. -/
theorem c3_counterexample :
    (parse (.jdict [("k", .jlist [])]) (TypeInfo.mkNamed "Root")).map
        (fun t => (lookupTI t.dict_keys "k").map
          (fun c => (c.allow_list, c.list_items))) =
      .ok (some (true, some (TypeInfo.mkNamed "k_item")))
    ∧ some (TypeInfo.mkNamed "k_item") ≠ (none : Option TypeInfo) := by
  exact ⟨rfl, by simp⟩

/-- C3 amended: merging an empty array sets `allow_list` and merges no
elements everywhere; but only at the root (`parse_list`) is no `list_items`
child created — at a nested position (`_parse_value`) an empty array creates
a fresh all-false `list_items` child when none exists, and leaves an existing
child untouched. -/
theorem c3_amended_empty_array :
    (∀ (t : TypeInfo), parse_list [] t = .ok t.setList)
    ∧ (∀ (t : TypeInfo) (k : String), t.list_items = none →
        parseValue (.jlist []) t k =
          .ok ((t.setList).setItems (some (TypeInfo.mkNamed
            (if k ≠ "" then k ++ "_item" else t.name ++ "Item")))))
    ∧ (∀ (t : TypeInfo) (k : String) (c : TypeInfo), t.list_items = some c →
        parseValue (.jlist []) t k = .ok ((t.setList).setItems (some c))) := by
  refine ⟨fun t => rfl, fun t k h => ?_, fun t k c h => ?_⟩
  · simp only [parseValue, h, parseItems]
  · simp only [parseValue, h, parseItems]

/-- C3 amended witness at concrete inputs. -/
theorem c3_amended_empty_array_witness :
    parseValue (.jlist []) (TypeInfo.mkNamed "Root") "k" =
      .ok (((TypeInfo.mkNamed "Root").setList).setItems
        (some (TypeInfo.mkNamed "k_item"))) :=
  c3_amended_empty_array.2.1 (TypeInfo.mkNamed "Root") "k" rfl

/-- The ordered alternative list of the spec's annotation composition rule
(§4.3): string, integer, float, null/absent, record-class-or-open-map,
list — a pure function of the descriptor, for comparison with the
accumulator-threading source function. -/
def specParts : TypeInfo → List String
  | .node fl li dk =>
    (if fl.allow_str then ["str"] else []) ++
    (if fl.allow_int then ["int"] else []) ++
    (if fl.allow_float then ["float"] else []) ++
    (if fl.allow_none || fl.optional then ["None"] else []) ++
    (if dk.isEmpty = false then [to_pascal_case fl.name ++ "Dict"]
     else if fl.allow_dict then ["dict[str, Any]"] else []) ++
    (match li with
     | some l => ["list[" ++ renderParts (specParts l) ++ "]"]
     | none => if fl.allow_list then ["list[Any]"] else [])
termination_by structural t => t

/-- The annotation the spec's composition rule renders for a descriptor. -/
def specAnnot (t : TypeInfo) : String := renderParts (specParts t)

/-- One generated field line per key, in first-seen order (pure form of the
`generate_dict_model` field loop). -/
def fieldLines : List (String × TypeInfo) → List String
  | [] => []
  | (f, c) :: rest =>
    ("    " ++ to_snake_case f ++ ": " ++ specAnnot c ++
      (if to_snake_case f ≠ f then " = Field(alias=\"" ++ f ++ "\")" else "")) ::
    fieldLines rest

/-- The class text `build_type_annotation` generates for a descriptor with
a non-empty `dict_keys`. -/
def classTextOf (fl : TIFlags) (dk : List (String × TypeInfo)) : String :=
  String.intercalate "\n"
    (classHeader (to_pascal_case fl.name ++ "Dict") ++ fieldLines dk)

mutual

/-- The block of model definitions one `build_type_annotation` call prepends
to the accumulator: first the block from `list_items` (prepended last, hence
in front), then — when `dict_keys` is non-empty — this node's own class text
followed by the blocks of its children in reverse field order. -/
def modelsOf : TypeInfo → List String
  | .node fl li dk =>
    (match li with
     | some l => modelsOf l
     | none => []) ++
    (if dk.isEmpty = false then classTextOf fl dk :: childModels dk else [])
termination_by structural t => t

/-- Accumulated blocks of the fields of a record in reverse field order:
each field's block is prepended in front of the previously accumulated
ones. -/
def childModels : List (String × TypeInfo) → List String
  | [] => []
  | (_, c) :: rest => childModels rest ++ modelsOf c
termination_by structural ks => ks

end

theorem intercalate_single (s x : String) : String.intercalate s [x] = x := rfl

theorem list_any_text : "list[" ++ String.intercalate " | " ["Any"] ++ "]" = "list[Any]" := rfl

theorem sizeOf_node_dict_keys (fl : TIFlags) (li : Option TypeInfo)
    (dk : List (String × TypeInfo)) :
    sizeOf dk < sizeOf (TypeInfo.node fl li dk) := by
  simp only [TypeInfo.node.sizeOf_spec]
  omega

theorem sizeOf_node_list_items (fl : TIFlags) (l : TypeInfo)
    (dk : List (String × TypeInfo)) :
    sizeOf l < sizeOf (TypeInfo.node fl (some l) dk) := by
  simp only [TypeInfo.node.sizeOf_spec, Option.some.sizeOf_spec]
  omega

theorem sizeOf_cons_child (f : String) (c : TypeInfo)
    (rest : List (String × TypeInfo)) :
    sizeOf c < sizeOf ((f, c) :: rest) := by
  simp only [List.cons.sizeOf_spec, Prod.mk.sizeOf_spec]
  omega

/-- Joint characterization of the renderer: `build_type_annotation` returns
the spec's annotation and prepends exactly the block `modelsOf t` to the
incoming accumulator; the field loop returns the pure field lines and
prepends the children's blocks in reverse field order. -/
theorem renderChar_aux : ∀ (n : Nat),
    (∀ (t : TypeInfo) (M : List String), sizeOf t < n →
      build_type_annot t M = (specAnnot t, modelsOf t ++ M))
    ∧ (∀ (ks : List (String × TypeInfo)) (M : List String), sizeOf ks < n →
      genFields ks M = (fieldLines ks, childModels ks ++ M)) := by
  intro n
  induction n using Nat.strong_induction_on with
  | _ n IH =>
    constructor
    · intro t M ht
      match t with
      | .node fl li dk =>
        have hdk := sizeOf_node_dict_keys fl li dk
        have hg : ∀ M', genFields dk M' = (fieldLines dk, childModels dk ++ M') := by
          intro M'
          exact (IH (sizeOf dk + 1) (by omega)).2 dk M' (by omega)
        cases li with
        | none =>
          cases h2 : dk.isEmpty with
          | true =>
            have hdnil : dk = [] := by simpa using h2
            subst hdnil
            cases h3 : fl.allow_dict <;> cases h4 : fl.allow_list <;>
              simp [build_type_annot, specAnnot, specParts, modelsOf, h3, h4,
                list_any_text]
          | false =>
            cases h4 : fl.allow_list <;>
              simp [build_type_annot, specAnnot, specParts, modelsOf, childModels,
                classTextOf, h2, h4, hg, intercalate_single, list_any_text]
        | some l =>
          have hl := sizeOf_node_list_items fl l dk
          have hb : ∀ M', build_type_annot l M' = (specAnnot l, modelsOf l ++ M') := by
            intro M'
            exact (IH (sizeOf l + 1) (by omega)).1 l M' (by omega)
          cases h2 : dk.isEmpty with
          | true =>
            have hdnil : dk = [] := by simpa using h2
            subst hdnil
            cases h3 : fl.allow_dict <;>
              simp [build_type_annot, specAnnot, specParts, modelsOf, h3, hb,
                intercalate_single]
          | false =>
            simp [build_type_annot, specAnnot, specParts, modelsOf, childModels,
              classTextOf, h2, hg, hb, intercalate_single]
    · intro ks M hks
      match ks with
      | [] => simp [genFields, fieldLines, childModels]
      | (f, c) :: rest =>
        have hc := sizeOf_cons_child f c rest
        have hrest : sizeOf rest < sizeOf ((f, c) :: rest) := by
          simp only [List.cons.sizeOf_spec, Prod.mk.sizeOf_spec]
          omega
        have hb : ∀ M', build_type_annot c M' = (specAnnot c, modelsOf c ++ M') := by
          intro M'
          exact (IH (sizeOf c + 1) (by omega)).1 c M' (by omega)
        have hr : ∀ M', genFields rest M' = (fieldLines rest, childModels rest ++ M') := by
          intro M'
          exact (IH (sizeOf rest + 1) (by omega)).2 rest M' (by omega)
        simp [genFields, fieldLines, childModels, hb, hr]

/-- `build_type_annotation` computes the spec's pure annotation and prepends
exactly its own model block. -/
theorem build_type_annot_char (t : TypeInfo) (M : List String) :
    build_type_annot t M = (specAnnot t, modelsOf t ++ M) :=
  (renderChar_aux (sizeOf t + 1)).1 t M (by omega)

/-- The field loop computes the pure field lines and prepends the children's
blocks in reverse field order. -/
theorem genFields_char (ks : List (String × TypeInfo)) (M : List String) :
    genFields ks M = (fieldLines ks, childModels ks ++ M) :=
  (renderChar_aux (sizeOf ks + 1)).2 ks M (by omega)

theorem renderParts_nil : renderParts [] = "Any" := rfl

theorem renderParts_one (p : String) : renderParts [p] = p := rfl

theorem renderParts_two (a b : String) (l : List String) :
    renderParts (a :: b :: l) = String.intercalate " | " (a :: b :: l) := rfl

theorem specParts_str_int (fl : TIFlags) (li : Option TypeInfo)
    (dk : List (String × TypeInfo))
    (h1 : fl.allow_str = true) (h2 : fl.allow_int = true) :
    ∃ rest, specParts (.node fl li dk) = "str" :: "int" :: rest :=
  ⟨(if fl.allow_float then ["float"] else []) ++
    (if fl.allow_none || fl.optional then ["None"] else []) ++
    (if dk.isEmpty = false then [to_pascal_case fl.name ++ "Dict"]
     else if fl.allow_dict then ["dict[str, Any]"] else []) ++
    (match li with
     | some l => ["list[" ++ renderParts (specParts l) ++ "]"]
     | none => if fl.allow_list then ["list[Any]"] else []),
   by cases li <;> simp [specParts.eq_1, specParts.eq_2, h1, h2]⟩

/-- C6: the annotation built by `build_type_annotation` equals the spec's
fixed-order pure composition (string, integer, float, null/absent,
record/map, list) regardless of the accumulator; zero alternatives give
"Any", a single one is returned bare, and with `allow_str` and `allow_int`
both set the result starts "str | int" (never "int | str"). -/
theorem c6_annot_fixed_order :
    (∀ (t : TypeInfo) (M : List String), (build_type_annot t M).1 = specAnnot t)
    ∧ (∀ (fl : TIFlags) (li : Option TypeInfo) (dk : List (String × TypeInfo))
        (M : List String), fl.allow_str = true → fl.allow_int = true →
        ∃ rest, (build_type_annot (.node fl li dk) M).1 =
          String.intercalate " | " ("str" :: "int" :: rest))
    ∧ (∀ (t : TypeInfo) (M : List String), specParts t = [] →
        (build_type_annot t M).1 = "Any")
    ∧ (∀ (t : TypeInfo) (M : List String) (p : String), specParts t = [p] →
        (build_type_annot t M).1 = p) := by
  refine ⟨?_, ?_, ?_, ?_⟩
  · intro t M
    rw [build_type_annot_char]
  · intro fl li dk M h1 h2
    obtain ⟨rest, hr⟩ := specParts_str_int fl li dk h1 h2
    refine ⟨rest, ?_⟩
    rw [build_type_annot_char]
    simp [specAnnot, hr, renderParts_two]
  · intro t M h
    rw [build_type_annot_char]
    simp [specAnnot, h, renderParts_nil]
  · intro t M p h
    rw [build_type_annot_char]
    simp [specAnnot, h, renderParts_one]

/-- C6 witness: a descriptor with `allow_str` and `allow_int` set renders
exactly "str | int". -/
theorem c6_annot_fixed_order_witness :
    (build_type_annot
      (.node { name := "T", allow_str := true, allow_int := true } none []) []).1 =
      "str | int" := by
  have h2 := c6_annot_fixed_order.2.1
    { name := "T", allow_str := true, allow_int := true } none [] [] rfl rfl
  rw [c6_annot_fixed_order.1]
  rfl

set_option maxRecDepth 100000 in
/-- C1 counterexample: rendering the descriptor of
`{"a": {"b": {"c": 1}}}` produces the models list with the class for `a`
(whose field line names `RootABDict`) BEFORE the definition of
`RootABDict`, so a definition that names another generated class does not
always appear after that class's definition. -/
theorem c1_counterexample :
    (parse (.jdict [("a", .jdict [("b", .jdict [("c", .jint 1)])])])
        (TypeInfo.mkNamed "Root")).map (fun t => (build_type_annot t []).2) =
      .ok
        ["class RootDict(BaseModel):\n    model_config = ConfigDict(extra=\"forbid\")\n    a: " ++
           "RootADict",
         "class RootADict(BaseModel):\n    model_config = ConfigDict(extra=\"forbid\")\n    b: " ++
           "RootABDict",
         "class " ++ "RootABDict" ++
           "(BaseModel):\n    model_config = ConfigDict(extra=\"forbid\")\n    c: int"] := rfl

/-- C1 amended: `build_type_annotation` prepends, in front of the previously
accumulated definitions, a block in which the finished class of the current
node comes FIRST, followed by the blocks generated from its fields (in
reverse field order) — so a nested parent class precedes every definition
generated from its children, and any `list_items` block is prepended in
front of that. -/
theorem c1_amended_prepend_order :
    (∀ (t : TypeInfo) (M : List String),
      build_type_annot t M = (specAnnot t, modelsOf t ++ M))
    ∧ (∀ (fl : TIFlags) (li : Option TypeInfo) (dk : List (String × TypeInfo)),
        dk.isEmpty = false →
        modelsOf (.node fl li dk) =
          (match li with | some l => modelsOf l | none => []) ++
          (classTextOf fl dk :: childModels dk)) := by
  refine ⟨build_type_annot_char, ?_⟩
  intro fl li dk h
  cases li <;> simp [modelsOf.eq_1, modelsOf.eq_2, h]

/-- C1 amended witness: for a one-field record the block is the class text
followed by the field's (empty) block. -/
theorem c1_amended_prepend_order_witness :
    modelsOf (.node { name := "Root" } none [("a", TypeInfo.mkNamed "RootA")]) =
      classTextOf { name := "Root" } [("a", TypeInfo.mkNamed "RootA")] ::
        childModels [("a", TypeInfo.mkNamed "RootA")] :=
  c1_amended_prepend_order.2 { name := "Root" } none
    [("a", TypeInfo.mkNamed "RootA")] rfl

/-- C10: with empty `dict_keys` and no `list_items` the generated schema is
exactly the two header lines and the blank-line separator — no model text,
no error; in particular for the root samples `{}` and `[]`. -/
theorem c10_empty_schema :
    (∀ (t : TypeInfo) (cn : String), t.dict_keys = [] → t.list_items = none →
      generate_pydantic_schema t cn = schemaHeader ++ "\n\n\n")
    ∧ get_schema (.jdict []) "Root" = .ok (schemaHeader ++ "\n\n\n")
    ∧ get_schema (.jlist []) "Root" = .ok (schemaHeader ++ "\n\n\n") := by
  refine ⟨?_, rfl, rfl⟩
  intro t cn h1 h2
  cases t with
  | node fl li dk =>
    have hdk : dk = [] := h1
    have hli : li = none := h2
    subst hdk
    subst hli
    rfl

/-- C10 witness at a concrete empty descriptor. -/
theorem c10_empty_schema_witness :
    generate_pydantic_schema (TypeInfo.mkNamed "Root") "Root" =
      schemaHeader ++ "\n\n\n" :=
  c10_empty_schema.1 (TypeInfo.mkNamed "Root") "Root" rfl rfl

theorem sizeOf_jdict_entries (es : List (String × JValue)) :
    sizeOf es < sizeOf (JValue.jdict es) := by
  simp only [JValue.jdict.sizeOf_spec]
  omega

theorem sizeOf_jlist_elems (es : List JValue) :
    sizeOf es < sizeOf (JValue.jlist es) := by
  simp only [JValue.jlist.sizeOf_spec]
  omega

theorem sizeOf_entry_val (k : String) (v : JValue) (rest : List (String × JValue)) :
    sizeOf v < sizeOf ((k, v) :: rest) := by
  simp only [List.cons.sizeOf_spec, Prod.mk.sizeOf_spec]
  omega

theorem sizeOf_entry_rest (k : String) (v : JValue) (rest : List (String × JValue)) :
    sizeOf rest < sizeOf ((k, v) :: rest) := by
  simp only [List.cons.sizeOf_spec, Prod.mk.sizeOf_spec]
  omega

theorem sizeOf_elem_head (x : JValue) (rest : List JValue) :
    sizeOf x < sizeOf (x :: rest) := by
  simp only [List.cons.sizeOf_spec]
  omega

theorem sizeOf_elem_rest (x : JValue) (rest : List JValue) :
    sizeOf rest < sizeOf (x :: rest) := by
  simp only [List.cons.sizeOf_spec]
  omega

/-- Every error produced anywhere inside a merge is the `UnboundLocalError`
on `x` — the engine has no other failure path below `parse`. -/
theorem errKind_aux : ∀ n : Nat,
    (∀ (v : JValue) (t : TypeInfo) (k : String) (e : PyError), sizeOf v < n →
      parseValue v t k = .error e → e = .unboundLocal "x")
    ∧ (∀ (es : List (String × JValue)) (t : TypeInfo) (e : PyError), sizeOf es < n →
      parseDictLoop es t = .error e → e = .unboundLocal "x")
    ∧ (∀ (xs : List JValue) (c : TypeInfo) (e : PyError), sizeOf xs < n →
      parseItems xs c = .error e → e = .unboundLocal "x") := by
  intro n
  induction n using Nat.strong_induction_on with
  | _ n IH =>
    refine ⟨?_, ?_, ?_⟩
    · intro v t k e hv h
      cases v with
      | jstr s => simp [parseValue] at h
      | jbool b => simp [parseValue] at h
      | jint m => simp [parseValue] at h
      | jfloat => simp [parseValue] at h
      | jnull => simp [parseValue] at h
      | jother s =>
        simp only [parseValue, Except.error.injEq] at h
        exact h.symm
      | jdict entries =>
        have hsz := sizeOf_jdict_entries entries
        simp only [parseValue] at h
        cases hE : parseDictLoop entries t.setDict with
        | error e' =>
          rw [hE] at h
          simp only [Except.error.injEq] at h
          subst h
          exact (IH (sizeOf entries + 1) (by omega)).2.1 entries t.setDict e'
            (by omega) hE
        | ok t1 =>
          rw [hE] at h
          simp at h
      | jlist elems =>
        have hsz := sizeOf_jlist_elems elems
        simp only [parseValue] at h
        cases hE : parseItems elems
            (match t.list_items with
             | some c => c
             | none => TypeInfo.mkNamed
                 (if k ≠ "" then k ++ "_item" else t.name ++ "Item")) with
        | error e' =>
          rw [hE] at h
          simp only [Except.error.injEq] at h
          subst h
          exact (IH (sizeOf elems + 1) (by omega)).2.2 elems _ e' (by omega) hE
        | ok c1 =>
          rw [hE] at h
          simp at h
    · intro es t e hes h
      cases es with
      | nil => simp [parseDictLoop] at h
      | cons kv rest =>
        obtain ⟨k, v⟩ := kv
        have hv := sizeOf_entry_val k v rest
        have hr := sizeOf_entry_rest k v rest
        simp only [parseDictLoop] at h
        cases hPV : parseValue v
            (match lookupTI t.dict_keys k with
             | some c => c
             | none => TypeInfo.mkNamed (t.name ++ to_pascal_case k)) k with
        | error e' =>
          rw [hPV] at h
          simp only [Except.error.injEq] at h
          subst h
          exact (IH (sizeOf v + 1) (by omega)).1 v _ k e' (by omega) hPV
        | ok c1 =>
          rw [hPV] at h
          exact (IH (sizeOf rest + 1) (by omega)).2.1 rest _ e (by omega) h
    · intro xs c e hxs h
      cases xs with
      | nil => simp [parseItems] at h
      | cons x rest =>
        have hx := sizeOf_elem_head x rest
        have hr := sizeOf_elem_rest x rest
        simp only [parseItems] at h
        cases hPV : parseValue x c "" with
        | error e' =>
          rw [hPV] at h
          simp only [Except.error.injEq] at h
          subst h
          exact (IH (sizeOf x + 1) (by omega)).1 x c "" e' (by omega) hPV
        | ok c1 =>
          rw [hPV] at h
          exact (IH (sizeOf rest + 1) (by omega)).2.2 rest c1 e (by omega) h

theorem parseValue_error_kind (v : JValue) (t : TypeInfo) (k : String)
    (e : PyError) (h : parseValue v t k = .error e) : e = .unboundLocal "x" :=
  (errKind_aux (sizeOf v + 1)).1 v t k e (by omega) h

theorem parseDictLoop_error_kind (es : List (String × JValue)) (t : TypeInfo)
    (e : PyError) (h : parseDictLoop es t = .error e) : e = .unboundLocal "x" :=
  (errKind_aux (sizeOf es + 1)).2.1 es t e (by omega) h

theorem parseItems_error_kind (xs : List JValue) (c : TypeInfo)
    (e : PyError) (h : parseItems xs c = .error e) : e = .unboundLocal "x" :=
  (errKind_aux (sizeOf xs + 1)).2.2 xs c e (by omega) h

/-- The runtime kinds accepted by the merge entry point `parse`. -/
def isDictOrList : JValue → Bool
  | .jdict _ => true
  | .jlist _ => true
  | _ => false

/-- C8: `parse` raises the root-shape `TypeError` for every root that is
neither a dict nor a list, and never produces a `TypeError` when the root is
a dict or a list (the only error a dict/list root can surface is the nested
`UnboundLocalError`). -/
theorem c8_root_shape_error :
    (∀ (v : JValue) (t : TypeInfo), isDictOrList v = false →
      parse v t = .error (.typeError ("Unexpected input data type: " ++ pyTypeName v)))
    ∧ (∀ (v : JValue) (t : TypeInfo) (e : PyError), isDictOrList v = true →
      parse v t = .error e → e.isTypeError = false) := by
  constructor
  · intro v t hv
    cases v with
    | jdict es => simp [isDictOrList] at hv
    | jlist es => simp [isDictOrList] at hv
    | jstr s => rfl
    | jbool b => rfl
    | jint m => rfl
    | jfloat => rfl
    | jnull => rfl
    | jother s => rfl
  · intro v t e hv h
    cases v with
    | jdict es =>
      simp only [parse, parse_dict] at h
      cases hE : parseDictLoop es t with
      | error e' =>
        rw [hE] at h
        simp only [Except.error.injEq] at h
        subst h
        rw [parseDictLoop_error_kind es t e' hE]
        rfl
      | ok t1 =>
        rw [hE] at h
        simp at h
    | jlist es =>
      simp only [parse, parse_list] at h
      by_cases hemp : es.isEmpty
      · simp [hemp] at h
      · simp only [hemp, if_false, Bool.false_eq_true] at h
        cases hE : parseItems es
            (match t.list_items with
             | some c => c
             | none => TypeInfo.mkNamed (t.name ++ "Item")) with
        | error e' =>
          rw [hE] at h
          simp only [Except.error.injEq] at h
          subst h
          rw [parseItems_error_kind es _ e' hE]
          rfl
        | ok c1 =>
          rw [hE] at h
          simp at h
    | jstr s => simp [isDictOrList] at hv
    | jbool b => simp [isDictOrList] at hv
    | jint m => simp [isDictOrList] at hv
    | jfloat => simp [isDictOrList] at hv
    | jnull => simp [isDictOrList] at hv
    | jother s => simp [isDictOrList] at hv

/-- C8 witness: an integer root raises the root-shape `TypeError`; a dict
root whose nested value has an unsupported kind fails, but not with a
`TypeError`. -/
theorem c8_root_shape_error_witness :
    parse (.jint 5) (TypeInfo.mkNamed "Root") =
      .error (.typeError ("Unexpected input data type: " ++ pyTypeName (.jint 5)))
    ∧ (PyError.unboundLocal "x").isTypeError = false := by
  constructor
  · exact c8_root_shape_error.1 (.jint 5) (TypeInfo.mkNamed "Root") rfl
  · exact c8_root_shape_error.2 (.jdict [("k", .jother "<class 'set'>")])
      (TypeInfo.mkNamed "Root") (.unboundLocal "x") rfl rfl

@[simp] theorem fl_node (f : TIFlags) (l : Option TypeInfo)
    (d : List (String × TypeInfo)) : (TypeInfo.node f l d).fl = f := rfl

@[simp] theorem list_items_node (f : TIFlags) (l : Option TypeInfo)
    (d : List (String × TypeInfo)) : (TypeInfo.node f l d).list_items = l := rfl

@[simp] theorem dict_keys_node (f : TIFlags) (l : Option TypeInfo)
    (d : List (String × TypeInfo)) : (TypeInfo.node f l d).dict_keys = d := rfl

@[simp] theorem updFl_fl (g : TIFlags → TIFlags) (t : TypeInfo) :
    (t.updFl g).fl = g t.fl := by cases t; rfl

@[simp] theorem updFl_list_items (g : TIFlags → TIFlags) (t : TypeInfo) :
    (t.updFl g).list_items = t.list_items := by cases t; rfl

@[simp] theorem updFl_dict_keys (g : TIFlags → TIFlags) (t : TypeInfo) :
    (t.updFl g).dict_keys = t.dict_keys := by cases t; rfl

@[simp] theorem setKeys_fl (t : TypeInfo) (d : List (String × TypeInfo)) :
    (t.setKeys d).fl = t.fl := by cases t; rfl

@[simp] theorem setKeys_list_items (t : TypeInfo) (d : List (String × TypeInfo)) :
    (t.setKeys d).list_items = t.list_items := by cases t; rfl

@[simp] theorem setKeys_dict_keys (t : TypeInfo) (d : List (String × TypeInfo)) :
    (t.setKeys d).dict_keys = d := by cases t; rfl

@[simp] theorem setItems_fl (t : TypeInfo) (li : Option TypeInfo) :
    (t.setItems li).fl = t.fl := by cases t; rfl

@[simp] theorem setItems_list_items (t : TypeInfo) (li : Option TypeInfo) :
    (t.setItems li).list_items = li := by cases t; rfl

@[simp] theorem setItems_dict_keys (t : TypeInfo) (li : Option TypeInfo) :
    (t.setItems li).dict_keys = t.dict_keys := by cases t; rfl

@[simp] theorem setOptional_optional (t : TypeInfo) :
    t.setOptional.optional = true := by
  cases t; rfl

@[simp] theorem setOptional_name (t : TypeInfo) :
    t.setOptional.name = t.name := by cases t; rfl

theorem name_eq_of_fl_eq {t u : TypeInfo} (h : t.fl = u.fl) : t.name = u.name := by
  simp [TypeInfo.name, h]

/-- Lookup after replacing an existing key. -/
theorem lookupTI_setTI_self (d : List (String × TypeInfo)) (k : String)
    (c c0 : TypeInfo) (h : lookupTI d k = some c0) :
    lookupTI (setTI d k c) k = some c := by
  induction d with
  | nil => simp [lookupTI] at h
  | cons kc rest ih =>
    obtain ⟨k1, c1⟩ := kc
    by_cases hk : k1 = k
    · subst hk
      simp [lookupTI, setTI]
    · simp only [lookupTI, setTI, if_neg hk] at h ⊢
      exact ih h

theorem lookupTI_setTI_ne (d : List (String × TypeInfo)) (k k' : String)
    (c : TypeInfo) (h : k' ≠ k) :
    lookupTI (setTI d k c) k' = lookupTI d k' := by
  induction d with
  | nil => rfl
  | cons kc rest ih =>
    obtain ⟨k1, c1⟩ := kc
    by_cases hk : k1 = k
    · subst hk
      have hne : k1 ≠ k' := fun hh => h hh.symm
      simp [setTI, lookupTI, hne]
    · simp only [setTI, if_neg hk, lookupTI]
      by_cases hk' : k1 = k'
      · simp [hk']
      · simp [hk', ih]

theorem lookupTI_append_self (d : List (String × TypeInfo)) (k : String)
    (c : TypeInfo) (h : lookupTI d k = none) :
    lookupTI (d ++ [(k, c)]) k = some c := by
  induction d with
  | nil => simp [lookupTI]
  | cons kc rest ih =>
    obtain ⟨k1, c1⟩ := kc
    by_cases hk : k1 = k
    · simp [lookupTI, hk] at h
    · simp only [lookupTI, if_neg hk] at h
      simp only [List.cons_append, lookupTI, if_neg hk]
      exact ih h

theorem lookupTI_append_ne (d : List (String × TypeInfo)) (k k' : String)
    (c : TypeInfo) (h : k' ≠ k) :
    lookupTI (d ++ [(k, c)]) k' = lookupTI d k' := by
  induction d with
  | nil =>
    have hne : ¬k = k' := fun hh => h hh.symm
    simp [lookupTI, hne]
  | cons kc rest ih =>
    obtain ⟨k1, c1⟩ := kc
    simp only [List.cons_append, lookupTI]
    by_cases hk : k1 = k'
    · simp [hk]
    · simp [hk, ih]

/-- Lookup through the optional-marking pass. -/
theorem lookupTI_markOptional (keys : List String) (d : List (String × TypeInfo))
    (k : String) :
    lookupTI (markOptional keys d) k =
      (lookupTI d k).map (fun c => if k ∈ keys then c else c.setOptional) := by
  induction d with
  | nil => simp [markOptional, lookupTI]
  | cons kc rest ih =>
    obtain ⟨k1, c1⟩ := kc
    simp only [markOptional, List.map_cons, lookupTI]
    by_cases hk : k1 = k
    · subst hk
      simp
    · simp only [if_neg hk]
      simpa [markOptional] using ih

/-- The key loop only rewrites `dict_keys`: flags and `list_items` of the
target are untouched. -/
theorem parseDictLoop_frame (es : List (String × JValue)) : ∀ (t t' : TypeInfo),
    parseDictLoop es t = .ok t' → t'.fl = t.fl ∧ t'.list_items = t.list_items := by
  induction es with
  | nil =>
    intro t t' h
    simp only [parseDictLoop, Except.ok.injEq] at h
    subst h
    exact ⟨rfl, rfl⟩
  | cons kv rest ih =>
    intro t t' h
    obtain ⟨k1, v⟩ := kv
    simp only [parseDictLoop] at h
    cases hPV : parseValue v
        (match lookupTI t.dict_keys k1 with
         | some c => c
         | none => TypeInfo.mkNamed (t.name ++ to_pascal_case k1)) k1 with
    | error e => rw [hPV] at h; simp at h
    | ok c1 =>
      rw [hPV] at h
      obtain ⟨h1, h2⟩ := ih _ _ h
      simp only [setKeys_fl, setKeys_list_items] at h1 h2
      exact ⟨h1, h2⟩

/-- A merge never changes the target's `name` or its own `optional` flag
(the optional-marking pass touches only children). -/
theorem parseValue_name_optional (v : JValue) (t : TypeInfo) (k : String)
    (t' : TypeInfo) (h : parseValue v t k = .ok t') :
    t'.name = t.name ∧ t'.optional = t.optional := by
  cases v with
  | jstr s =>
    simp only [parseValue, Except.ok.injEq] at h
    subst h
    constructor <;> simp [TypeInfo.name, TypeInfo.optional, TypeInfo.setStr]
  | jbool b =>
    simp only [parseValue, Except.ok.injEq] at h
    subst h
    constructor <;> simp [TypeInfo.name, TypeInfo.optional, TypeInfo.setInt]
  | jint m =>
    simp only [parseValue, Except.ok.injEq] at h
    subst h
    constructor <;> simp [TypeInfo.name, TypeInfo.optional, TypeInfo.setInt]
  | jfloat =>
    simp only [parseValue, Except.ok.injEq] at h
    subst h
    constructor <;> simp [TypeInfo.name, TypeInfo.optional, TypeInfo.setNoneFlag,
      TypeInfo.setFloat]
  | jnull =>
    simp only [parseValue, Except.ok.injEq] at h
    subst h
    constructor <;> simp [TypeInfo.name, TypeInfo.optional, TypeInfo.setNoneFlag]
  | jother s => simp [parseValue] at h
  | jdict entries =>
    simp only [parseValue] at h
    cases hE : parseDictLoop entries t.setDict with
    | error e => rw [hE] at h; simp at h
    | ok t1 =>
      rw [hE] at h
      simp only [Except.ok.injEq] at h
      subst h
      obtain ⟨h1, _⟩ := parseDictLoop_frame entries _ _ hE
      simp only [TypeInfo.setDict, updFl_fl] at h1
      constructor
      · simp [TypeInfo.name, h1]
      · simp [TypeInfo.optional, h1]
  | jlist elems =>
    simp only [parseValue] at h
    cases hE : parseItems elems
        (match t.list_items with
         | some c => c
         | none => TypeInfo.mkNamed
             (if k ≠ "" then k ++ "_item" else t.name ++ "Item")) with
    | error e => rw [hE] at h; simp at h
    | ok c1 =>
      rw [hE] at h
      simp only [Except.ok.injEq] at h
      subst h
      constructor <;>
        simp [TypeInfo.name, TypeInfo.optional, TypeInfo.setList]

/-- The values a sample's object holds at one key, in sample order. -/
def valuesFor (k : String) : List (String × JValue) → List JValue
  | [] => []
  | (k1, v) :: rest =>
    if k1 = k then v :: valuesFor k rest else valuesFor k rest

/-- Folding repeated merges of a list of values into one child descriptor,
with a fixed key name — the per-key effect of the key loop. -/
def foldPV (k : String) : List JValue → TypeInfo → Except PyError TypeInfo
  | [], c => .ok c
  | v :: rest, c =>
    match parseValue v c k with
    | .error e => .error e
    | .ok c1 => foldPV k rest c1

theorem foldPV_name_optional (k : String) (vs : List JValue) :
    ∀ (c c' : TypeInfo), foldPV k vs c = .ok c' →
    c'.name = c.name ∧ c'.optional = c.optional := by
  induction vs with
  | nil =>
    intro c c' h
    simp only [foldPV, Except.ok.injEq] at h
    subst h
    exact ⟨rfl, rfl⟩
  | cons v rest ih =>
    intro c c' h
    simp only [foldPV] at h
    cases hPV : parseValue v c k with
    | error e => rw [hPV] at h; simp at h
    | ok c1 =>
      rw [hPV] at h
      obtain ⟨h1, h2⟩ := ih c1 c' h
      obtain ⟨h3, h4⟩ := parseValue_name_optional v c k c1 hPV
      exact ⟨h1.trans h3, h2.trans h4⟩

/-- The child descriptor the key loop starts from for key `k`: the existing
child, else a fresh one named `{parent}{PascalCase k}` when the sample
mentions `k`, else nothing. -/
def seedFor (t : TypeInfo) (k : String) (es : List (String × JValue)) :
    Option TypeInfo :=
  match lookupTI t.dict_keys k with
  | some c => some c
  | none =>
    if k ∈ sampleKeys es then
      some (TypeInfo.mkNamed (t.name ++ to_pascal_case k))
    else none

theorem sampleKeys_cons (k1 : String) (v : JValue) (rest : List (String × JValue)) :
    sampleKeys ((k1, v) :: rest) = k1 :: sampleKeys rest := rfl

/-- Per-key characterization of the key loop: for every key, the resulting
child is the fold of `parseValue` over the sample's values at that key,
starting from the existing child (or a fresh one named from the parent when
the sample mentions the key); keys mentioned nowhere stay absent. -/
theorem parseDictLoop_char (es : List (String × JValue)) : ∀ (t t' : TypeInfo),
    parseDictLoop es t = .ok t' → ∀ (k : String),
    (match seedFor t k es with
     | none => lookupTI t'.dict_keys k = none
     | some c0 => ∃ c', foldPV k (valuesFor k es) c0 = .ok c' ∧
         lookupTI t'.dict_keys k = some c') := by
  induction es with
  | nil =>
    intro t t' h k
    simp only [parseDictLoop, Except.ok.injEq] at h
    subst h
    cases hL : lookupTI t.dict_keys k with
    | none => simp [seedFor, hL, sampleKeys]
    | some c => simp [seedFor, hL, valuesFor, foldPV]
  | cons kv rest ih =>
    intro t t' h k
    obtain ⟨k1, v⟩ := kv
    simp only [parseDictLoop] at h
    cases hL1 : lookupTI t.dict_keys k1 with
    | some c0 =>
      rw [hL1] at h
      cases hPV : parseValue v c0 k1 with
      | error e => rw [hPV] at h; simp at h
      | ok c1 =>
        rw [hPV] at h
        simp only [Option.isSome_some, if_true] at h
        by_cases hk : k1 = k
        · subst hk
          have hlt1 :
              lookupTI (t.setKeys (setTI t.dict_keys k1 c1)).dict_keys k1 =
                some c1 := by
            simp [lookupTI_setTI_self _ _ _ _ hL1]
          have ihk := ih _ _ h k1
          simp only [seedFor, hlt1] at ihk
          obtain ⟨c', hf, hl⟩ := ihk
          simp only [seedFor, hL1]
          exact ⟨c', by simp [valuesFor, foldPV, hPV, hf], hl⟩
        · have hkk : ¬k = k1 := fun hh => hk hh.symm
          have ihk := ih _ _ h k
          have heq : seedFor (t.setKeys (setTI t.dict_keys k1 c1)) k rest =
              seedFor t k ((k1, v) :: rest) := by
            simp [seedFor, lookupTI_setTI_ne t.dict_keys k1 k c1 hkk,
              TypeInfo.name, sampleKeys_cons, hkk]
          rw [heq] at ihk
          have hv : valuesFor k ((k1, v) :: rest) = valuesFor k rest := by
            simp [valuesFor, hk]
          rw [show valuesFor k rest = valuesFor k ((k1, v) :: rest) from hv.symm]
            at ihk
          exact ihk
    | none =>
      rw [hL1] at h
      cases hPV : parseValue v (TypeInfo.mkNamed (t.name ++ to_pascal_case k1)) k1 with
      | error e => rw [hPV] at h; simp at h
      | ok c1 =>
        rw [hPV] at h
        simp only [Option.isSome_none, Bool.false_eq_true, if_false] at h
        by_cases hk : k1 = k
        · subst hk
          have hlt1 :
              lookupTI (t.setKeys (t.dict_keys ++ [(k1, c1)])).dict_keys k1 =
                some c1 := by
            simp [lookupTI_append_self _ _ _ hL1]
          have ihk := ih _ _ h k1
          simp only [seedFor, hlt1] at ihk
          obtain ⟨c', hf, hl⟩ := ihk
          simp only [seedFor, hL1, sampleKeys_cons, List.mem_cons, true_or,
            if_true]
          exact ⟨c', by simp [valuesFor, foldPV, hPV, hf], hl⟩
        · have hkk : ¬k = k1 := fun hh => hk hh.symm
          have ihk := ih _ _ h k
          have heq : seedFor (t.setKeys (t.dict_keys ++ [(k1, c1)])) k rest =
              seedFor t k ((k1, v) :: rest) := by
            simp [seedFor, lookupTI_append_ne t.dict_keys k1 k c1 hkk,
              TypeInfo.name, sampleKeys_cons, hkk]
          rw [heq] at ihk
          have hv : valuesFor k ((k1, v) :: rest) = valuesFor k rest := by
            simp [valuesFor, hk]
          rw [show valuesFor k rest = valuesFor k ((k1, v) :: rest) from hv.symm]
            at ihk
          exact ihk

@[simp] theorem mkNamed_name (n : String) : (TypeInfo.mkNamed n).name = n := rfl

@[simp] theorem mkNamed_optional (n : String) :
    (TypeInfo.mkNamed n).optional = false := rfl

@[simp] theorem mkNamed_list_items (n : String) :
    (TypeInfo.mkNamed n).list_items = none := rfl

@[simp] theorem mkNamed_dict_keys (n : String) :
    (TypeInfo.mkNamed n).dict_keys = [] := rfl

/-- Per-key characterization of a whole `parse_dict` call, including the
optional-marking pass. -/
theorem parse_dict_char (es : List (String × JValue)) (t t' : TypeInfo)
    (h : parse_dict es t = .ok t') (k : String) :
    (match seedFor t k es with
     | none => lookupTI t'.dict_keys k = none
     | some c0 => ∃ c', foldPV k (valuesFor k es) c0 = .ok c' ∧
         lookupTI t'.dict_keys k =
           some (if k ∈ sampleKeys es then c' else c'.setOptional)) := by
  simp only [parse_dict] at h
  cases hE : parseDictLoop es t with
  | error e => rw [hE] at h; simp at h
  | ok t1 =>
    rw [hE] at h
    simp only [Except.ok.injEq] at h
    subst h
    have hc := parseDictLoop_char es t t1 hE k
    cases hS : seedFor t k es with
    | none =>
      rw [hS] at hc
      simp [lookupTI_markOptional, hc]
    | some c0 =>
      rw [hS] at hc
      obtain ⟨c', hf, hl⟩ := hc
      refine ⟨c', hf, ?_⟩
      simp [lookupTI_markOptional, hl]

/-- `parse_dict` only rewrites `dict_keys`. -/
theorem parse_dict_frame (es : List (String × JValue)) (t t' : TypeInfo)
    (h : parse_dict es t = .ok t') :
    t'.fl = t.fl ∧ t'.list_items = t.list_items := by
  simp only [parse_dict] at h
  cases hE : parseDictLoop es t with
  | error e => rw [hE] at h; simp at h
  | ok t1 =>
    rw [hE] at h
    simp only [Except.ok.injEq] at h
    subst h
    obtain ⟨h1, h2⟩ := parseDictLoop_frame es t t1 hE
    simp [h1, h2]

/-- The `optional` flag read off an optional child. -/
def optOf (o : Option TypeInfo) : Bool := (o.map TypeInfo.optional).getD false

/-- Merging a sample that contains key `k` leaves that key's `optional`
status unchanged (a newly created child starts non-optional). -/
theorem parse_dict_opt_present (es : List (String × JValue)) (t t' : TypeInfo)
    (k : String) (h : parse_dict es t = .ok t') (hk : k ∈ sampleKeys es) :
    optOf (lookupTI t'.dict_keys k) = optOf (lookupTI t.dict_keys k) := by
  have hc := parse_dict_char es t t' h k
  cases hL : lookupTI t.dict_keys k with
  | some c =>
    simp only [seedFor, hL] at hc
    obtain ⟨c', hf, hl⟩ := hc
    have hopt := (foldPV_name_optional k (valuesFor k es) c c' hf).2
    simp [optOf, hL, hl, hk, hopt]
  | none =>
    simp only [seedFor, hL, if_pos hk] at hc
    obtain ⟨c', hf, hl⟩ := hc
    have hopt :=
      (foldPV_name_optional k (valuesFor k es) _ c' hf).2
    simp only [mkNamed_optional] at hopt
    simp [optOf, hL, hl, hk, hopt]

/-- Merging a sample without key `k` cannot create that key. -/
theorem parse_dict_none_absent (es : List (String × JValue)) (t t' : TypeInfo)
    (k : String) (h : parse_dict es t = .ok t') (hk : k ∉ sampleKeys es)
    (hL : lookupTI t.dict_keys k = none) :
    lookupTI t'.dict_keys k = none := by
  have hc := parse_dict_char es t t' h k
  simp only [seedFor, hL, if_neg hk] at hc
  exact hc

theorem parse_dict_many_append (pre post : List (List (String × JValue))) :
    ∀ (t t' : TypeInfo), parse_dict_many (pre ++ post) t = .ok t' →
    ∃ t1, parse_dict_many pre t = .ok t1 ∧ parse_dict_many post t1 = .ok t' := by
  induction pre with
  | nil =>
    intro t t' h
    exact ⟨t, rfl, h⟩
  | cons s rest ih =>
    intro t t' h
    simp only [List.cons_append, parse_dict_many] at h
    cases hE : parse_dict s t with
    | error e => rw [hE] at h; simp at h
    | ok t1 =>
      rw [hE] at h
      obtain ⟨t2, h1, h2⟩ := ih t1 t' h
      refine ⟨t2, ?_, h2⟩
      simp only [parse_dict_many, hE]
      exact h1

theorem parse_dict_many_opt_present (samples : List (List (String × JValue))) :
    ∀ (t t' : TypeInfo) (k : String), parse_dict_many samples t = .ok t' →
    (∀ s ∈ samples, k ∈ sampleKeys s) →
    optOf (lookupTI t'.dict_keys k) = optOf (lookupTI t.dict_keys k) := by
  induction samples with
  | nil =>
    intro t t' k h _
    simp only [parse_dict_many, Except.ok.injEq] at h
    subst h
    rfl
  | cons s rest ih =>
    intro t t' k h hall
    simp only [parse_dict_many] at h
    cases hE : parse_dict s t with
    | error e => rw [hE] at h; simp at h
    | ok t1 =>
      rw [hE] at h
      have h1 := parse_dict_opt_present s t t1 k hE (hall s (by simp))
      have h2 := ih t1 t' k h (fun s' hs' => hall s' (by simp [hs']))
      exact h2.trans h1

theorem parse_dict_many_absent (samples : List (List (String × JValue))) :
    ∀ (t t' : TypeInfo) (k : String), parse_dict_many samples t = .ok t' →
    (∀ s ∈ samples, k ∉ sampleKeys s) →
    lookupTI t.dict_keys k = none → lookupTI t'.dict_keys k = none := by
  induction samples with
  | nil =>
    intro t t' k h _ hL
    simp only [parse_dict_many, Except.ok.injEq] at h
    subst h
    exact hL
  | cons s rest ih =>
    intro t t' k h hall hL
    simp only [parse_dict_many] at h
    cases hE : parse_dict s t with
    | error e => rw [hE] at h; simp at h
    | ok t1 =>
      rw [hE] at h
      have h1 := parse_dict_none_absent s t t1 k hE (hall s (by simp)) hL
      exact ih t1 t' k h (fun s' hs' => hall s' (by simp [hs'])) h1

/-- C4: across repeated `parse_dict` merges into one shared descriptor,
(1) after a merge every known key absent from that sample is optional;
(2) optional, once set, is never cleared by later merges; and
(3) a key absent from the descriptor that is missing from every early sample
and present in every sample from the moment it is first added stays
non-optional. -/
theorem c4_optional_bookkeeping :
    (∀ (s : List (String × JValue)) (t t' : TypeInfo), parse_dict s t = .ok t' →
      ∀ (k : String) (c' : TypeInfo), lookupTI t'.dict_keys k = some c' →
        k ∉ sampleKeys s → c'.optional = true)
    ∧ (∀ (s : List (String × JValue)) (t t' : TypeInfo), parse_dict s t = .ok t' →
      ∀ (k : String) (c : TypeInfo), lookupTI t.dict_keys k = some c →
        c.optional = true →
        ∃ c', lookupTI t'.dict_keys k = some c' ∧ c'.optional = true)
    ∧ (∀ (pre post : List (List (String × JValue))) (t t' : TypeInfo) (k : String),
        parse_dict_many (pre ++ post) t = .ok t' →
        lookupTI t.dict_keys k = none →
        (∀ s ∈ pre, k ∉ sampleKeys s) →
        (∀ s ∈ post, k ∈ sampleKeys s) →
        optOf (lookupTI t'.dict_keys k) = false) := by
  refine ⟨?_, ?_, ?_⟩
  · intro s t t' h k c' hl hk
    have hc := parse_dict_char s t t' h k
    cases hL : lookupTI t.dict_keys k with
    | some c =>
      simp only [seedFor, hL] at hc
      obtain ⟨c'', hf, hl'⟩ := hc
      rw [hl'] at hl
      simp only [if_neg hk, Option.some.injEq] at hl
      subst hl
      simp
    | none =>
      simp only [seedFor, hL, if_neg hk] at hc
      rw [hc] at hl
      cases hl
  · intro s t t' h k c hL hopt
    have hc := parse_dict_char s t t' h k
    simp only [seedFor, hL] at hc
    obtain ⟨c', hf, hl⟩ := hc
    have hpres := (foldPV_name_optional k (valuesFor k s) c c' hf).2
    by_cases hmem : k ∈ sampleKeys s
    · exact ⟨c', by simpa [hmem] using hl, by rw [hpres, hopt]⟩
    · exact ⟨c'.setOptional, by simpa [hmem] using hl, by simp⟩
  · intro pre post t t' k h hL hpre hpost
    obtain ⟨t1, h1, h2⟩ := parse_dict_many_append pre post t t' h
    have ha := parse_dict_many_absent pre t t1 k h1 hpre hL
    have hb := parse_dict_many_opt_present post t1 t' k h2 hpost
    rw [hb, ha]
    rfl

/-- Extracts the descriptor of a successful merge (used to state concrete
witnesses). -/
def extractTI (r : Except PyError TypeInfo) : TypeInfo :=
  match r with
  | .ok t => t
  | .error _ => TypeInfo.mkNamed ""

/-- C4 witness: `"a"` first appears in the second sample and is present in
every later sample, so it stays non-optional even though the first sample
lacked it. -/
theorem c4_optional_bookkeeping_witness :
    optOf (lookupTI (extractTI (parse_dict_many
        ([[("b", .jint 1)]] ++ [[("a", .jint 2), ("b", .jint 3)]])
        (TypeInfo.mkNamed "Root"))).dict_keys "a") = false :=
  c4_optional_bookkeeping.2.2 [[("b", .jint 1)]]
    [[("a", .jint 2), ("b", .jint 3)]] (TypeInfo.mkNamed "Root") _ "a" rfl rfl
    (by decide) (by decide)

/-- Two descriptor trees carry identical `allow_*` flags at every
corresponding position: flags agree at the node, `list_items` presence
agrees and corresponding children are related, and `dict_keys` bind the same
key set with related children (insertion order, names and `optional` are
ignored — the claim is about the flag union only). -/
inductive FlagsEq : TypeInfo → TypeInfo → Prop where
  | mk : ∀ (t u : TypeInfo),
      t.allow_str = u.allow_str → t.allow_int = u.allow_int →
      t.allow_float = u.allow_float → t.allow_none = u.allow_none →
      t.allow_dict = u.allow_dict → t.allow_list = u.allow_list →
      t.list_items.isSome = u.list_items.isSome →
      (∀ a b, t.list_items = some a → u.list_items = some b → FlagsEq a b) →
      (∀ k, (lookupTI t.dict_keys k).isSome = (lookupTI u.dict_keys k).isSome) →
      (∀ k a b, lookupTI t.dict_keys k = some a →
        lookupTI u.dict_keys k = some b → FlagsEq a b) →
      FlagsEq t u

theorem FlagsEq.flags {t u : TypeInfo} (h : FlagsEq t u) :
    t.allow_str = u.allow_str ∧ t.allow_int = u.allow_int ∧
    t.allow_float = u.allow_float ∧ t.allow_none = u.allow_none ∧
    t.allow_dict = u.allow_dict ∧ t.allow_list = u.allow_list := by
  cases h
  refine ⟨?_, ?_, ?_, ?_, ?_, ?_⟩ <;> assumption

theorem FlagsEq.items_isSome {t u : TypeInfo} (h : FlagsEq t u) :
    t.list_items.isSome = u.list_items.isSome := by
  cases h
  assumption

theorem FlagsEq.items_rel {t u : TypeInfo} (h : FlagsEq t u) :
    ∀ a b, t.list_items = some a → u.list_items = some b → FlagsEq a b := by
  cases h
  assumption

theorem FlagsEq.keys_isSome {t u : TypeInfo} (h : FlagsEq t u) :
    ∀ k, (lookupTI t.dict_keys k).isSome = (lookupTI u.dict_keys k).isSome := by
  cases h
  assumption

theorem FlagsEq.keys_rel {t u : TypeInfo} (h : FlagsEq t u) :
    ∀ k a b, lookupTI t.dict_keys k = some a →
      lookupTI u.dict_keys k = some b → FlagsEq a b := by
  cases h
  assumption

theorem lookupTI_mem (d : List (String × TypeInfo)) (k : String) (c : TypeInfo)
    (h : lookupTI d k = some c) : (k, c) ∈ d := by
  induction d with
  | nil => simp [lookupTI] at h
  | cons kc rest ih =>
    obtain ⟨k1, c1⟩ := kc
    by_cases hk : k1 = k
    · subst hk
      simp only [lookupTI, if_pos, Option.some.injEq] at h
      subst h
      exact List.mem_cons_self _ _
    · simp only [lookupTI, if_neg hk] at h
      exact List.mem_cons_of_mem _ (ih h)

theorem sizeOf_lookup_lt (fl : TIFlags) (li : Option TypeInfo)
    (dk : List (String × TypeInfo)) (k : String) (c : TypeInfo)
    (h : lookupTI dk k = some c) : sizeOf c < sizeOf (TypeInfo.node fl li dk) := by
  have hm := lookupTI_mem dk k c h
  have h1 : sizeOf (k, c) ≤ sizeOf dk := le_of_lt (List.sizeOf_lt_of_mem hm)
  have h2 : sizeOf c < sizeOf (k, c) := by
    simp only [Prod.mk.sizeOf_spec]
    omega
  have h3 := sizeOf_node_dict_keys fl li dk
  omega

theorem FlagsEq.refl_aux : ∀ (n : Nat) (t : TypeInfo), sizeOf t < n →
    FlagsEq t t := by
  intro n
  induction n using Nat.strong_induction_on with
  | _ n IH =>
    intro t ht
    cases t with
    | node fl li dk =>
      refine FlagsEq.mk _ _ rfl rfl rfl rfl rfl rfl rfl ?_ (fun k => rfl) ?_
      · intro a b ha hb
        rw [ha] at hb
        cases hb
        have hlt := sizeOf_node_list_items fl a dk
        simp only [list_items_node] at ha
        subst ha
        exact IH (sizeOf a + 1) (by omega) a (by omega)
      · intro k a b ha hb
        simp only [dict_keys_node] at ha hb
        rw [ha] at hb
        cases hb
        have hlt := sizeOf_lookup_lt fl li dk k a ha
        exact IH (sizeOf a + 1) (by omega) a (by omega)

theorem FlagsEq.refl (t : TypeInfo) : FlagsEq t t :=
  FlagsEq.refl_aux (sizeOf t + 1) t (by omega)

theorem FlagsEq.symm {t u : TypeInfo} (h : FlagsEq t u) : FlagsEq u t := by
  induction h with
  | mk t u h1 h2 h3 h4 h5 h6 h7 h8 h9 h10 ih8 ih10 =>
    exact FlagsEq.mk u t h1.symm h2.symm h3.symm h4.symm h5.symm h6.symm
      h7.symm (fun a b ha hb => ih8 b a hb ha) (fun k => (h9 k).symm)
      (fun k a b ha hb => ih10 k b a hb ha)

theorem FlagsEq.trans {t u : TypeInfo} (h1 : FlagsEq t u) :
    ∀ w, FlagsEq u w → FlagsEq t w := by
  induction h1 with
  | mk t u g1 g2 g3 g4 g5 g6 g7 g8 g9 g10 ih8 ih10 =>
    intro w h2
    refine FlagsEq.mk t w (g1.trans h2.flags.1) (g2.trans h2.flags.2.1)
      (g3.trans h2.flags.2.2.1) (g4.trans h2.flags.2.2.2.1)
      (g5.trans h2.flags.2.2.2.2.1) (g6.trans h2.flags.2.2.2.2.2)
      (g7.trans h2.items_isSome) ?_
      (fun k => (g9 k).trans (h2.keys_isSome k)) ?_
    · intro a c ha hc
      cases hb : u.list_items with
      | none => rw [hb] at g7; rw [ha] at g7; simp at g7
      | some b => exact ih8 a b ha hb c (h2.items_rel b c hb hc)
    · intro k a c ha hc
      cases hb : lookupTI u.dict_keys k with
      | none =>
        have := g9 k
        rw [ha, hb] at this
        simp at this
      | some b => exact ih10 k a b ha hb c (h2.keys_rel k b c hb hc)

theorem TypeInfo.ext {t u : TypeInfo} (h1 : t.fl = u.fl)
    (h2 : t.list_items = u.list_items) (h3 : t.dict_keys = u.dict_keys) :
    t = u := by
  cases t
  cases u
  simp only [fl_node, list_items_node, dict_keys_node] at h1 h2 h3
  rw [h1, h2, h3]

theorem updFl_id (t : TypeInfo) : t.updFl id = t := by cases t; rfl

theorem setKeys_self (t : TypeInfo) : t.setKeys t.dict_keys = t := by
  cases t; rfl

theorem setKeys_setKeys (t : TypeInfo) (d1 d2 : List (String × TypeInfo)) :
    (t.setKeys d1).setKeys d2 = t.setKeys d2 := by cases t; rfl

theorem setItems_setItems (t : TypeInfo) (x y : Option TypeInfo) :
    (t.setItems x).setItems y = t.setItems y := by cases t; rfl

theorem updFl_setKeys (t : TypeInfo) (g : TIFlags → TIFlags)
    (d : List (String × TypeInfo)) :
    (t.setKeys d).updFl g = (t.updFl g).setKeys d := by cases t; rfl

theorem updFl_setItems (t : TypeInfo) (g : TIFlags → TIFlags)
    (li : Option TypeInfo) :
    (t.setItems li).updFl g = (t.updFl g).setItems li := by cases t; rfl

theorem updFl_comp (t : TypeInfo) (g h : TIFlags → TIFlags) :
    (t.updFl g).updFl h = t.updFl (fun f => h (g f)) := by cases t; rfl

theorem updFl_congr (t : TypeInfo) (g h : TIFlags → TIFlags)
    (he : ∀ f, g f = h f) : t.updFl g = t.updFl h := by
  cases t
  simp only [TypeInfo.updFl]
  rw [he]

/-- Two flat-field rewrites applied to related descriptors stay related as
long as they act identically on the six `allow_*` flags. -/
theorem FlagsEq.updFl_updFl {t u : TypeInfo} (h : FlagsEq t u)
    (g1 g2 : TIFlags → TIFlags)
    (hs : (g1 t.fl).allow_str = (g2 u.fl).allow_str)
    (hi : (g1 t.fl).allow_int = (g2 u.fl).allow_int)
    (hf : (g1 t.fl).allow_float = (g2 u.fl).allow_float)
    (hn : (g1 t.fl).allow_none = (g2 u.fl).allow_none)
    (hd : (g1 t.fl).allow_dict = (g2 u.fl).allow_dict)
    (hl : (g1 t.fl).allow_list = (g2 u.fl).allow_list) :
    FlagsEq (t.updFl g1) (u.updFl g2) := by
  refine FlagsEq.mk _ _ ?_ ?_ ?_ ?_ ?_ ?_ ?_ ?_ ?_ ?_
  · simpa [TypeInfo.allow_str] using hs
  · simpa [TypeInfo.allow_int] using hi
  · simpa [TypeInfo.allow_float] using hf
  · simpa [TypeInfo.allow_none] using hn
  · simpa [TypeInfo.allow_dict] using hd
  · simpa [TypeInfo.allow_list] using hl
  · simpa using h.items_isSome
  · intro a b ha hb
    simp only [updFl_list_items] at ha hb
    exact h.items_rel a b ha hb
  · intro k
    simpa using h.keys_isSome k
  · intro k a b ha hb
    simp only [updFl_dict_keys] at ha hb
    exact h.keys_rel k a b ha hb

theorem FlagsEq.setOpt_right {t u : TypeInfo} (h : FlagsEq t u) :
    FlagsEq t u.setOptional := by
  have := h.updFl_updFl id (fun f => { f with optional := true })
    (by simpa [TypeInfo.allow_str] using h.flags.1)
    (by simpa [TypeInfo.allow_int] using h.flags.2.1)
    (by simpa [TypeInfo.allow_float] using h.flags.2.2.1)
    (by simpa [TypeInfo.allow_none] using h.flags.2.2.2.1)
    (by simpa [TypeInfo.allow_dict] using h.flags.2.2.2.2.1)
    (by simpa [TypeInfo.allow_list] using h.flags.2.2.2.2.2)
  rwa [updFl_id] at this

theorem FlagsEq.setOpt_left {t u : TypeInfo} (h : FlagsEq t u) :
    FlagsEq t.setOptional u :=
  (h.symm.setOpt_right).symm

theorem FlagsEq.fresh (n m : String) :
    FlagsEq (TypeInfo.mkNamed n) (TypeInfo.mkNamed m) := by
  refine FlagsEq.mk _ _ rfl rfl rfl rfl rfl rfl rfl ?_ (fun k => rfl) ?_
  · intro a b ha hb
    simp at ha
  · intro k a b ha hb
    simp [lookupTI] at ha

mutual

/-- No value of an unsupported runtime kind occurs anywhere in the tree
(every genuinely decoded JSON sample satisfies this). -/
def noOther : JValue → Bool
  | .jdict es => noOtherE es
  | .jlist xs => noOtherL xs
  | .jother _ => false
  | _ => true
termination_by structural v => v

def noOtherE : List (String × JValue) → Bool
  | [] => true
  | (_, v) :: rest => noOther v && noOtherE rest
termination_by structural es => es

def noOtherL : List JValue → Bool
  | [] => true
  | v :: rest => noOther v && noOtherL rest
termination_by structural xs => xs

end

/-- Merging a value free of unsupported kinds always succeeds. -/
theorem total_aux : ∀ n : Nat,
    (∀ (v : JValue) (t : TypeInfo) (k : String), sizeOf v < n →
      noOther v = true → ∃ t', parseValue v t k = .ok t')
    ∧ (∀ (es : List (String × JValue)) (t : TypeInfo), sizeOf es < n →
      noOtherE es = true → ∃ t', parseDictLoop es t = .ok t')
    ∧ (∀ (xs : List JValue) (c : TypeInfo), sizeOf xs < n →
      noOtherL xs = true → ∃ c', parseItems xs c = .ok c') := by
  intro n
  induction n using Nat.strong_induction_on with
  | _ n IH =>
    refine ⟨?_, ?_, ?_⟩
    · intro v t k hv hno
      cases v with
      | jstr s => exact ⟨_, rfl⟩
      | jbool b => exact ⟨_, rfl⟩
      | jint m => exact ⟨_, rfl⟩
      | jfloat => exact ⟨_, rfl⟩
      | jnull => exact ⟨_, rfl⟩
      | jother s => simp [noOther] at hno
      | jdict entries =>
        have hsz := sizeOf_jdict_entries entries
        simp only [noOther] at hno
        obtain ⟨t1, h1⟩ := (IH (sizeOf entries + 1) (by omega)).2.1 entries
          t.setDict (by omega) hno
        exact ⟨t1.setKeys (markOptional (sampleKeys entries) t1.dict_keys),
          by simp only [parseValue]; rw [h1]⟩
      | jlist elems =>
        have hsz := sizeOf_jlist_elems elems
        simp only [noOther] at hno
        obtain ⟨c1, h1⟩ := (IH (sizeOf elems + 1) (by omega)).2.2 elems
          (match t.list_items with
           | some c => c
           | none => TypeInfo.mkNamed
               (if k ≠ "" then k ++ "_item" else t.name ++ "Item")) (by omega) hno
        exact ⟨(t.setList).setItems (some c1),
          by simp only [parseValue]; rw [h1]⟩
    · intro es t hes hno
      cases es with
      | nil => exact ⟨t, rfl⟩
      | cons kv rest =>
        obtain ⟨k1, v⟩ := kv
        have hv := sizeOf_entry_val k1 v rest
        have hr := sizeOf_entry_rest k1 v rest
        simp only [noOtherE, Bool.and_eq_true] at hno
        obtain ⟨c1, h1⟩ := (IH (sizeOf v + 1) (by omega)).1 v
          (match lookupTI t.dict_keys k1 with
           | some c => c
           | none => TypeInfo.mkNamed (t.name ++ to_pascal_case k1)) k1
          (by omega) hno.1
        obtain ⟨t2, h2⟩ := (IH (sizeOf rest + 1) (by omega)).2.1 rest
          (t.setKeys (if (lookupTI t.dict_keys k1).isSome
            then setTI t.dict_keys k1 c1
            else t.dict_keys ++ [(k1, c1)])) (by omega) hno.2
        exact ⟨t2, by simp only [parseDictLoop, h1]; exact h2⟩
    · intro xs c hxs hno
      cases xs with
      | nil => exact ⟨c, rfl⟩
      | cons x rest =>
        have hx := sizeOf_elem_head x rest
        have hr := sizeOf_elem_rest x rest
        simp only [noOtherL, Bool.and_eq_true] at hno
        obtain ⟨c1, h1⟩ := (IH (sizeOf x + 1) (by omega)).1 x c "" (by omega) hno.1
        obtain ⟨c2, h2⟩ := (IH (sizeOf rest + 1) (by omega)).2.2 rest c1
          (by omega) hno.2
        exact ⟨c2, by simp only [parseItems, h1]; exact h2⟩

theorem parseValue_total (v : JValue) (t : TypeInfo) (k : String)
    (hno : noOther v = true) : ∃ t', parseValue v t k = .ok t' :=
  (total_aux (sizeOf v + 1)).1 v t k (by omega) hno

theorem parseItems_total (xs : List JValue) (c : TypeInfo)
    (hno : noOtherL xs = true) : ∃ c', parseItems xs c = .ok c' :=
  (total_aux (sizeOf xs + 1)).2.2 xs c (by omega) hno

/-- A successful merge implies the value contained no unsupported kinds. -/
theorem ok_noOther_aux : ∀ n : Nat,
    (∀ (v : JValue) (t : TypeInfo) (k : String) (t' : TypeInfo), sizeOf v < n →
      parseValue v t k = .ok t' → noOther v = true)
    ∧ (∀ (es : List (String × JValue)) (t t' : TypeInfo), sizeOf es < n →
      parseDictLoop es t = .ok t' → noOtherE es = true)
    ∧ (∀ (xs : List JValue) (c c' : TypeInfo), sizeOf xs < n →
      parseItems xs c = .ok c' → noOtherL xs = true) := by
  intro n
  induction n using Nat.strong_induction_on with
  | _ n IH =>
    refine ⟨?_, ?_, ?_⟩
    · intro v t k t' hv h
      cases v with
      | jstr s => rfl
      | jbool b => rfl
      | jint m => rfl
      | jfloat => rfl
      | jnull => rfl
      | jother s => simp [parseValue] at h
      | jdict entries =>
        have hsz := sizeOf_jdict_entries entries
        simp only [parseValue] at h
        cases hE : parseDictLoop entries t.setDict with
        | error e => rw [hE] at h; simp at h
        | ok t1 =>
          simp only [noOther]
          exact (IH (sizeOf entries + 1) (by omega)).2.1 entries _ _ (by omega) hE
      | jlist elems =>
        have hsz := sizeOf_jlist_elems elems
        simp only [parseValue] at h
        cases hE : parseItems elems
            (match t.list_items with
             | some c => c
             | none => TypeInfo.mkNamed
                 (if k ≠ "" then k ++ "_item" else t.name ++ "Item")) with
        | error e => rw [hE] at h; simp at h
        | ok c1 =>
          simp only [noOther]
          exact (IH (sizeOf elems + 1) (by omega)).2.2 elems _ _ (by omega) hE
    · intro es t t' hes h
      cases es with
      | nil => rfl
      | cons kv rest =>
        obtain ⟨k1, v⟩ := kv
        have hv := sizeOf_entry_val k1 v rest
        have hr := sizeOf_entry_rest k1 v rest
        simp only [parseDictLoop] at h
        cases hPV : parseValue v
            (match lookupTI t.dict_keys k1 with
             | some c => c
             | none => TypeInfo.mkNamed (t.name ++ to_pascal_case k1)) k1 with
        | error e => rw [hPV] at h; simp at h
        | ok c1 =>
          rw [hPV] at h
          simp only [noOtherE, Bool.and_eq_true]
          exact ⟨(IH (sizeOf v + 1) (by omega)).1 v _ k1 _ (by omega) hPV,
            (IH (sizeOf rest + 1) (by omega)).2.1 rest _ _ (by omega) h⟩
    · intro xs c c' hxs h
      cases xs with
      | nil => rfl
      | cons x rest =>
        have hx := sizeOf_elem_head x rest
        have hr := sizeOf_elem_rest x rest
        simp only [parseItems] at h
        cases hPV : parseValue x c "" with
        | error e => rw [hPV] at h; simp at h
        | ok c1 =>
          rw [hPV] at h
          simp only [noOtherL, Bool.and_eq_true]
          exact ⟨(IH (sizeOf x + 1) (by omega)).1 x c "" c1 (by omega) hPV,
            (IH (sizeOf rest + 1) (by omega)).2.2 rest c1 c' (by omega) h⟩

theorem parseValue_ok_noOther (v : JValue) (t : TypeInfo) (k : String)
    (t' : TypeInfo) (h : parseValue v t k = .ok t') : noOther v = true :=
  (ok_noOther_aux (sizeOf v + 1)).1 v t k t' (by omega) h

/-- The child `_parse_value`'s list branch merges elements into: the
existing `list_items`, or a fresh descriptor named from the key / parent. -/
def seedLi (t : TypeInfo) (k : String) : TypeInfo :=
  match t.list_items with
  | some c => c
  | none => TypeInfo.mkNamed (if k ≠ "" then k ++ "_item" else t.name ++ "Item")

theorem pv_dict_eq (es : List (String × JValue)) (t : TypeInfo) (k : String) :
    parseValue (.jdict es) t k = parse_dict es t.setDict := by
  simp only [parseValue, parse_dict]

theorem pv_list_eq (xs : List JValue) (t : TypeInfo) (k : String) :
    parseValue (.jlist xs) t k =
      (match parseItems xs (seedLi t k) with
       | .error e => .error e
       | .ok c1 => .ok ((t.setList).setItems (some c1))) := by
  simp only [parseValue, seedLi]

theorem parseItems_eq_foldPV (xs : List JValue) : ∀ c,
    parseItems xs c = foldPV "" xs c := by
  induction xs with
  | nil => intro c; rfl
  | cons x rest ih =>
    intro c
    simp only [parseItems, foldPV]
    cases parseValue x c "" <;> simp [ih]

theorem sizeOf_valuesFor_mem (k : String) (es : List (String × JValue))
    (x : JValue) (hx : x ∈ valuesFor k es) : sizeOf x < sizeOf es := by
  induction es with
  | nil => simp [valuesFor] at hx
  | cons kv rest ih =>
    obtain ⟨k1, v⟩ := kv
    have hr := sizeOf_entry_rest k1 v rest
    have hv := sizeOf_entry_val k1 v rest
    by_cases hk : k1 = k
    · simp only [valuesFor, if_pos hk, List.mem_cons] at hx
      cases hx with
      | inl he => subst he; omega
      | inr he => have := ih he; omega
    · simp only [valuesFor, if_neg hk] at hx
      have := ih hx
      omega

theorem foldPV_total (k : String) (vs : List JValue)
    (hno : ∀ x ∈ vs, noOther x = true) : ∀ c, ∃ c', foldPV k vs c = .ok c' := by
  induction vs with
  | nil => intro c; exact ⟨c, rfl⟩
  | cons x rest ih =>
    intro c
    obtain ⟨c1, h1⟩ := parseValue_total x c k (hno x (by simp))
    obtain ⟨c2, h2⟩ := ih (fun y hy => hno y (by simp [hy])) c1
    exact ⟨c2, by simp only [foldPV, h1]; exact h2⟩

theorem foldPV_ok_noOther (k : String) (vs : List JValue) : ∀ (c c' : TypeInfo),
    foldPV k vs c = .ok c' → ∀ x ∈ vs, noOther x = true := by
  induction vs with
  | nil => intro c c' _ x hx; simp at hx
  | cons y rest ih =>
    intro c c' h x hx
    simp only [foldPV] at h
    cases hPV : parseValue y c k with
    | error e => rw [hPV] at h; simp at h
    | ok c1 =>
      rw [hPV] at h
      rcases List.mem_cons.mp hx with he | he
      · subst he
        exact parseValue_ok_noOther x c k c1 hPV
      · exact ih c1 c' h x he

/-- A flat-field rewrite that preserves `name` and commutes with each of the
six flag-setting updates the engine performs. -/
def flagUpdOK (g : TIFlags → TIFlags) : Prop :=
  (∀ f, (g f).name = f.name) ∧
  (∀ f, g { f with allow_str := true } = { g f with allow_str := true }) ∧
  (∀ f, g { f with allow_int := true } = { g f with allow_int := true }) ∧
  (∀ f, g { f with allow_float := true } = { g f with allow_float := true }) ∧
  (∀ f, g { f with allow_none := true } = { g f with allow_none := true }) ∧
  (∀ f, g { f with allow_dict := true } = { g f with allow_dict := true }) ∧
  (∀ f, g { f with allow_list := true } = { g f with allow_list := true })

theorem updFl_name (g : TIFlags → TIFlags) (hOK : flagUpdOK g) (t : TypeInfo) :
    (t.updFl g).name = t.name := by
  simp [TypeInfo.name, hOK.1]

/-- The key loop reads only `name` and `dict_keys`, so it commutes with any
name-preserving flat-field rewrite of the target. -/
theorem parseDictLoop_updFl (g : TIFlags → TIFlags) (hOK : flagUpdOK g)
    (es : List (String × JValue)) : ∀ (t : TypeInfo),
    parseDictLoop es (t.updFl g) =
      (parseDictLoop es t).map (TypeInfo.updFl g) := by
  induction es with
  | nil => intro t; rfl
  | cons kv rest ih =>
    intro t
    obtain ⟨k1, v⟩ := kv
    simp only [parseDictLoop, updFl_dict_keys, updFl_name g hOK]
    cases hPV : parseValue v
        (match lookupTI t.dict_keys k1 with
         | some c => c
         | none => TypeInfo.mkNamed (t.name ++ to_pascal_case k1)) k1 with
    | error e => rfl
    | ok c1 =>
      dsimp only
      rw [← updFl_setKeys]
      exact ih _

theorem parse_dict_updFl (g : TIFlags → TIFlags) (hOK : flagUpdOK g)
    (es : List (String × JValue)) (t : TypeInfo) :
    parse_dict es (t.updFl g) = (parse_dict es t).map (TypeInfo.updFl g) := by
  simp only [parse_dict, parseDictLoop_updFl g hOK es t]
  cases parseDictLoop es t with
  | error e => rfl
  | ok t1 =>
    simp only [Except.map]
    rw [← updFl_setKeys]
    simp

/-- A merge commutes with any flat-field rewrite satisfying `flagUpdOK`:
the engine never reads the target's flags, only sets them. -/
theorem parseValue_updFl (g : TIFlags → TIFlags) (hOK : flagUpdOK g)
    (v : JValue) (t : TypeInfo) (k : String) :
    parseValue v (t.updFl g) k = (parseValue v t k).map (TypeInfo.updFl g) := by
  cases v with
  | jstr s =>
    simp only [parseValue, Except.map, TypeInfo.setStr, updFl_comp]
    rw [updFl_congr t _ _ (fun f => hOK.2.1 f)]
  | jbool b =>
    simp only [parseValue, Except.map, TypeInfo.setInt, updFl_comp]
    rw [updFl_congr t _ _ (fun f => hOK.2.2.1 f)]
  | jint m =>
    simp only [parseValue, Except.map, TypeInfo.setInt, updFl_comp]
    rw [updFl_congr t _ _ (fun f => hOK.2.2.1 f)]
  | jfloat =>
    simp only [parseValue, Except.map, TypeInfo.setFloat, updFl_comp]
    rw [updFl_congr t _ _ (fun f => hOK.2.2.2.1 f)]
  | jnull =>
    simp only [parseValue, Except.map, TypeInfo.setNoneFlag, updFl_comp]
    rw [updFl_congr t _ _ (fun f => hOK.2.2.2.2.1 f)]
  | jother s => rfl
  | jdict es =>
    rw [pv_dict_eq, pv_dict_eq]
    have hsd : (t.updFl g).setDict = (t.setDict).updFl g := by
      simp only [TypeInfo.setDict, updFl_comp]
      exact updFl_congr t _ _ (fun f => (hOK.2.2.2.2.2.1 f).symm)
    rw [hsd, parse_dict_updFl g hOK]
  | jlist xs =>
    rw [pv_list_eq, pv_list_eq]
    have hseed : seedLi (t.updFl g) k = seedLi t k := by
      simp [seedLi, updFl_name g hOK]
    rw [hseed]
    cases parseItems xs (seedLi t k) with
    | error e => rfl
    | ok c1 =>
      simp only [Except.map]
      have : ((t.updFl g).setList).setItems (some c1) =
          (((t.setList).setItems (some c1))).updFl g := by
        rw [updFl_setItems]
        simp only [TypeInfo.setList, updFl_comp]
        rw [updFl_congr t _ _ (fun f => hOK.2.2.2.2.2.2 f)]
      rw [this]

theorem foldPV_updFl (g : TIFlags → TIFlags) (hOK : flagUpdOK g) (k : String)
    (vs : List JValue) : ∀ (c : TypeInfo),
    foldPV k vs (c.updFl g) = (foldPV k vs c).map (TypeInfo.updFl g) := by
  induction vs with
  | nil => intro c; rfl
  | cons x rest ih =>
    intro c
    simp only [foldPV, parseValue_updFl g hOK]
    cases parseValue x c k with
    | error e => rfl
    | ok c1 =>
      dsimp only [Except.map]
      exact ih c1

theorem flagUpdOK_optional : flagUpdOK (fun f => { f with optional := true }) := by
  refine ⟨fun f => rfl, fun f => rfl, fun f => rfl, fun f => rfl, fun f => rfl,
    fun f => rfl, fun f => rfl⟩

theorem setOptional_eq_updFl (t : TypeInfo) :
    t.setOptional = t.updFl (fun f => { f with optional := true }) := rfl

theorem parseDictLoop_dep (es : List (String × JValue)) : ∀ (t u t' : TypeInfo),
    parseDictLoop es t = .ok t' → u.name = t.name → u.dict_keys = t.dict_keys →
    parseDictLoop es u = .ok (u.setKeys t'.dict_keys) := by
  induction es with
  | nil =>
    intro t u t' h hn hd
    simp only [parseDictLoop, Except.ok.injEq] at h ⊢
    subst h
    rw [← hd, setKeys_self]
  | cons kv rest ih =>
    intro t u t' h hn hd
    obtain ⟨k1, v⟩ := kv
    simp only [parseDictLoop] at h ⊢
    rw [hn, hd]
    cases hPV : parseValue v
        (match lookupTI t.dict_keys k1 with
         | some c => c
         | none => TypeInfo.mkNamed (t.name ++ to_pascal_case k1)) k1 with
    | error e => rw [hPV] at h; simp at h
    | ok c1 =>
      rw [hPV] at h
      dsimp only at h ⊢
      have := ih (t.setKeys (if (lookupTI t.dict_keys k1).isSome
          then setTI t.dict_keys k1 c1 else t.dict_keys ++ [(k1, c1)]))
        (u.setKeys (if (lookupTI t.dict_keys k1).isSome
          then setTI t.dict_keys k1 c1 else t.dict_keys ++ [(k1, c1)])) t' h
        (by simpa [TypeInfo.name] using hn) (by simp)
      rw [this, setKeys_setKeys]

theorem parse_dict_dep (es : List (String × JValue)) (t u t' : TypeInfo)
    (h : parse_dict es t = .ok t') (hn : u.name = t.name)
    (hd : u.dict_keys = t.dict_keys) :
    parse_dict es u = .ok (u.setKeys t'.dict_keys) := by
  simp only [parse_dict] at h ⊢
  cases hE : parseDictLoop es t with
  | error e => rw [hE] at h; simp at h
  | ok t1 =>
    rw [hE] at h
    simp only [Except.ok.injEq] at h
    subst h
    rw [parseDictLoop_dep es t u t1 hE hn hd]
    simp [setKeys_setKeys]

theorem FlagsEq.setStr_both {t u : TypeInfo} (h : FlagsEq t u) :
    FlagsEq t.setStr u.setStr := by
  refine h.updFl_updFl _ _ ?_ ?_ ?_ ?_ ?_ ?_ <;>
    simp [TypeInfo.allow_str, TypeInfo.allow_int, TypeInfo.allow_float,
      TypeInfo.allow_none, TypeInfo.allow_dict, TypeInfo.allow_list] <;>
    first
      | exact h.flags.1 | exact h.flags.2.1 | exact h.flags.2.2.1
      | exact h.flags.2.2.2.1 | exact h.flags.2.2.2.2.1
      | exact h.flags.2.2.2.2.2

theorem FlagsEq.setInt_both {t u : TypeInfo} (h : FlagsEq t u) :
    FlagsEq t.setInt u.setInt := by
  refine h.updFl_updFl _ _ ?_ ?_ ?_ ?_ ?_ ?_ <;>
    simp [TypeInfo.allow_str, TypeInfo.allow_int, TypeInfo.allow_float,
      TypeInfo.allow_none, TypeInfo.allow_dict, TypeInfo.allow_list] <;>
    first
      | exact h.flags.1 | exact h.flags.2.1 | exact h.flags.2.2.1
      | exact h.flags.2.2.2.1 | exact h.flags.2.2.2.2.1
      | exact h.flags.2.2.2.2.2

theorem FlagsEq.setFloat_both {t u : TypeInfo} (h : FlagsEq t u) :
    FlagsEq t.setFloat u.setFloat := by
  refine h.updFl_updFl _ _ ?_ ?_ ?_ ?_ ?_ ?_ <;>
    simp [TypeInfo.allow_str, TypeInfo.allow_int, TypeInfo.allow_float,
      TypeInfo.allow_none, TypeInfo.allow_dict, TypeInfo.allow_list] <;>
    first
      | exact h.flags.1 | exact h.flags.2.1 | exact h.flags.2.2.1
      | exact h.flags.2.2.2.1 | exact h.flags.2.2.2.2.1
      | exact h.flags.2.2.2.2.2

theorem FlagsEq.setNoneFlag_both {t u : TypeInfo} (h : FlagsEq t u) :
    FlagsEq t.setNoneFlag u.setNoneFlag := by
  refine h.updFl_updFl _ _ ?_ ?_ ?_ ?_ ?_ ?_ <;>
    simp [TypeInfo.allow_str, TypeInfo.allow_int, TypeInfo.allow_float,
      TypeInfo.allow_none, TypeInfo.allow_dict, TypeInfo.allow_list] <;>
    first
      | exact h.flags.1 | exact h.flags.2.1 | exact h.flags.2.2.1
      | exact h.flags.2.2.2.1 | exact h.flags.2.2.2.2.1
      | exact h.flags.2.2.2.2.2

theorem FlagsEq.setDict_both {t u : TypeInfo} (h : FlagsEq t u) :
    FlagsEq t.setDict u.setDict := by
  refine h.updFl_updFl _ _ ?_ ?_ ?_ ?_ ?_ ?_ <;>
    simp [TypeInfo.allow_str, TypeInfo.allow_int, TypeInfo.allow_float,
      TypeInfo.allow_none, TypeInfo.allow_dict, TypeInfo.allow_list] <;>
    first
      | exact h.flags.1 | exact h.flags.2.1 | exact h.flags.2.2.1
      | exact h.flags.2.2.2.1 | exact h.flags.2.2.2.2.1
      | exact h.flags.2.2.2.2.2

theorem FlagsEq.setList_both {t u : TypeInfo} (h : FlagsEq t u) :
    FlagsEq t.setList u.setList := by
  refine h.updFl_updFl _ _ ?_ ?_ ?_ ?_ ?_ ?_ <;>
    simp [TypeInfo.allow_str, TypeInfo.allow_int, TypeInfo.allow_float,
      TypeInfo.allow_none, TypeInfo.allow_dict, TypeInfo.allow_list] <;>
    first
      | exact h.flags.1 | exact h.flags.2.1 | exact h.flags.2.2.1
      | exact h.flags.2.2.2.1 | exact h.flags.2.2.2.2.1
      | exact h.flags.2.2.2.2.2

theorem FlagsEq.setOpt_both {t u : TypeInfo} (h : FlagsEq t u) :
    FlagsEq t.setOptional u.setOptional :=
  (h.setOpt_right).setOpt_left

/-- Folding the same value list over related children preserves relatedness,
given congruence for each element. -/
theorem foldPV_cong_of (k : String) (vs : List JValue)
    (hc : ∀ x ∈ vs, ∀ (c d c' d' : TypeInfo), FlagsEq c d →
      parseValue x c k = .ok c' → parseValue x d k = .ok d' → FlagsEq c' d') :
    ∀ (c d c' d' : TypeInfo), FlagsEq c d → foldPV k vs c = .ok c' →
      foldPV k vs d = .ok d' → FlagsEq c' d' := by
  induction vs with
  | nil =>
    intro c d c' d' h hf hg
    simp only [foldPV, Except.ok.injEq] at hf hg
    subst hf
    subst hg
    exact h
  | cons x rest ih =>
    intro c d c' d' h hf hg
    simp only [foldPV] at hf hg
    cases hPV1 : parseValue x c k with
    | error e => rw [hPV1] at hf; simp at hf
    | ok c1 =>
      rw [hPV1] at hf
      cases hPV2 : parseValue x d k with
      | error e => rw [hPV2] at hg; simp at hg
      | ok d1 =>
        rw [hPV2] at hg
        have h1 := hc x (by simp) c d c1 d1 h hPV1 hPV2
        exact ih (fun y hy => hc y (by simp [hy])) c1 d1 c' d' h1 hf hg

theorem seedFor_eq_of (t1 t2 : TypeInfo) (k : String)
    (es : List (String × JValue)) (hd : t1.dict_keys = t2.dict_keys)
    (hn : t1.name = t2.name) : seedFor t1 k es = seedFor t2 k es := by
  simp [seedFor, hd, hn]

theorem setDict_dict_keys (t : TypeInfo) : t.setDict.dict_keys = t.dict_keys := by
  simp [TypeInfo.setDict]

theorem setDict_name (t : TypeInfo) : t.setDict.name = t.name := by
  simp [TypeInfo.name, TypeInfo.setDict]

theorem keys_isSome_some {t u : TypeInfo} (h : FlagsEq t u) {k : String}
    {a : TypeInfo} (ha : lookupTI t.dict_keys k = some a) :
    ∃ b, lookupTI u.dict_keys k = some b := by
  have hi := h.keys_isSome k
  rw [ha] at hi
  cases hb : lookupTI u.dict_keys k with
  | none => rw [hb] at hi; simp at hi
  | some b => exact ⟨b, rfl⟩

theorem keys_isSome_none {t u : TypeInfo} (h : FlagsEq t u) {k : String}
    (ha : lookupTI t.dict_keys k = none) :
    lookupTI u.dict_keys k = none := by
  have hi := h.keys_isSome k
  rw [ha] at hi
  cases hb : lookupTI u.dict_keys k with
  | none => rfl
  | some b => rw [hb] at hi; simp at hi

/-- Congruence of one merge step with respect to `FlagsEq`. -/
def CongAt (v : JValue) : Prop :=
  ∀ (t u : TypeInfo) (k : String) (t' u' : TypeInfo),
    FlagsEq t u → parseValue v t k = .ok t' → parseValue v u k = .ok u' →
    FlagsEq t' u'

theorem parseValue_cong_aux : ∀ (n : Nat) (v : JValue), sizeOf v < n →
    CongAt v := by
  intro n
  induction n using Nat.strong_induction_on with
  | _ n IH =>
    intro v hv t u k t' u' h h1 h2
    obtain ⟨e1, e2, e3, e4, e5, e6⟩ := h.flags
    cases v with
    | jstr s =>
      simp only [parseValue, Except.ok.injEq] at h1 h2
      subst h1; subst h2
      exact h.setStr_both
    | jbool b =>
      simp only [parseValue, Except.ok.injEq] at h1 h2
      subst h1; subst h2
      exact h.setInt_both
    | jint m =>
      simp only [parseValue, Except.ok.injEq] at h1 h2
      subst h1; subst h2
      exact h.setInt_both
    | jfloat =>
      simp only [parseValue, Except.ok.injEq] at h1 h2
      subst h1; subst h2
      exact h.setFloat_both
    | jnull =>
      simp only [parseValue, Except.ok.injEq] at h1 h2
      subst h1; subst h2
      exact h.setNoneFlag_both
    | jother s => simp [parseValue] at h1
    | jdict es =>
      have hsz := sizeOf_jdict_entries es
      rw [pv_dict_eq] at h1 h2
      have hcElem : ∀ x ∈ valuesFor k es, ∀ (c d c' d' : TypeInfo),
          FlagsEq c d → parseValue x c k = .ok c' →
          parseValue x d k = .ok d' → FlagsEq c' d' := by
        intro x hx
        have hxs := sizeOf_valuesFor_mem k es x hx
        intro c d c' d' hcd hp1 hp2
        exact IH (sizeOf x + 1) (by omega) x (by omega) c d k c' d' hcd hp1 hp2
      obtain ⟨F1a, F1b⟩ := parse_dict_frame es t.setDict t' h1
      obtain ⟨F2a, F2b⟩ := parse_dict_frame es u.setDict u' h2
      simp only [TypeInfo.setDict, updFl_fl, updFl_list_items] at F1a F1b F2a F2b
      have hkey : ∀ k', (lookupTI t'.dict_keys k').isSome =
          (lookupTI u'.dict_keys k').isSome ∧
          (∀ a b, lookupTI t'.dict_keys k' = some a →
            lookupTI u'.dict_keys k' = some b → FlagsEq a b) := by
        intro k'
        have hcElem' : ∀ x ∈ valuesFor k' es, ∀ (c d c' d' : TypeInfo),
            FlagsEq c d → parseValue x c k' = .ok c' →
            parseValue x d k' = .ok d' → FlagsEq c' d' := by
          intro x hx
          have hxs := sizeOf_valuesFor_mem k' es x hx
          intro c d c' d' hcd hp1 hp2
          exact IH (sizeOf x + 1) (by omega) x (by omega) c d k' c' d' hcd hp1 hp2
        have hc1 := parse_dict_char es t.setDict t' h1 k'
        have hc2 := parse_dict_char es u.setDict u' h2 k'
        rw [seedFor_eq_of t.setDict t k' es (setDict_dict_keys t)
          (setDict_name t)] at hc1
        rw [seedFor_eq_of u.setDict u k' es (setDict_dict_keys u)
          (setDict_name u)] at hc2
        cases hLt : lookupTI t.dict_keys k' with
        | some a0 =>
          obtain ⟨b0, hLu⟩ := keys_isSome_some h hLt
          simp only [seedFor, hLt] at hc1
          simp only [seedFor, hLu] at hc2
          obtain ⟨c', hf1, hl1⟩ := hc1
          obtain ⟨d', hf2, hl2⟩ := hc2
          have hE0 := h.keys_rel k' a0 b0 hLt hLu
          have hE' := foldPV_cong_of k' (valuesFor k' es) hcElem' a0 b0 c' d'
            hE0 hf1 hf2
          constructor
          · rw [hl1, hl2]
            simp
          · intro a b ha hb
            rw [hl1] at ha
            rw [hl2] at hb
            simp only [Option.some.injEq] at ha hb
            by_cases hm : k' ∈ sampleKeys es
            · rw [if_pos hm] at ha hb
              subst ha; subst hb
              exact hE'
            · rw [if_neg hm] at ha hb
              subst ha; subst hb
              exact hE'.setOpt_both
        | none =>
          have hLu := keys_isSome_none h hLt
          simp only [seedFor, hLt] at hc1
          simp only [seedFor, hLu] at hc2
          by_cases hm : k' ∈ sampleKeys es
          · simp only [if_pos hm] at hc1 hc2
            obtain ⟨c', hf1, hl1⟩ := hc1
            obtain ⟨d', hf2, hl2⟩ := hc2
            have hE' := foldPV_cong_of k' (valuesFor k' es) hcElem' _ _ c' d'
              (FlagsEq.fresh _ _) hf1 hf2
            constructor
            · rw [hl1, hl2]
              simp
            · intro a b ha hb
              rw [hl1] at ha
              rw [hl2] at hb
              simp only [if_pos hm, Option.some.injEq] at ha hb
              subst ha; subst hb
              exact hE'
          · simp only [if_neg hm] at hc1 hc2
            constructor
            · rw [hc1, hc2]
            · intro a b ha hb
              rw [hc1] at ha
              cases ha
      refine FlagsEq.mk _ _ ?_ ?_ ?_ ?_ ?_ ?_ ?_ ?_
        (fun k' => (hkey k').1) (fun k' a b => (hkey k').2 a b)
      · simpa [TypeInfo.allow_str, F1a, F2a] using e1
      · simpa [TypeInfo.allow_int, F1a, F2a] using e2
      · simpa [TypeInfo.allow_float, F1a, F2a] using e3
      · simpa [TypeInfo.allow_none, F1a, F2a] using e4
      · simp [TypeInfo.allow_dict, F1a, F2a]
      · simpa [TypeInfo.allow_list, F1a, F2a] using e6
      · rw [F1b, F2b]
        exact h.items_isSome
      · intro a b ha hb
        rw [F1b] at ha
        rw [F2b] at hb
        exact h.items_rel a b ha hb
    | jlist xs =>
      have hsz := sizeOf_jlist_elems xs
      rw [pv_list_eq] at h1 h2
      have hcElem : ∀ x ∈ xs, ∀ (c d c' d' : TypeInfo),
          FlagsEq c d → parseValue x c "" = .ok c' →
          parseValue x d "" = .ok d' → FlagsEq c' d' := by
        intro x hx
        have hxs := List.sizeOf_lt_of_mem hx
        intro c d c' d' hcd hp1 hp2
        exact IH (sizeOf x + 1) (by omega) x (by omega) c d "" c' d' hcd hp1 hp2
      cases hI1 : parseItems xs (seedLi t k) with
      | error e => rw [hI1] at h1; simp at h1
      | ok c1 =>
        rw [hI1] at h1
        simp only [Except.ok.injEq] at h1
        subst h1
        cases hI2 : parseItems xs (seedLi u k) with
        | error e => rw [hI2] at h2; simp at h2
        | ok d1 =>
          rw [hI2] at h2
          simp only [Except.ok.injEq] at h2
          subst h2
          rw [parseItems_eq_foldPV] at hI1 hI2
          have hseedE : FlagsEq (seedLi t k) (seedLi u k) := by
            cases hLit : t.list_items with
            | some ct =>
              have hiu := h.items_isSome
              rw [hLit] at hiu
              cases hLiu : u.list_items with
              | none => rw [hLiu] at hiu; simp at hiu
              | some cu =>
                simp only [seedLi, hLit, hLiu]
                exact h.items_rel ct cu hLit hLiu
            | none =>
              have hiu := h.items_isSome
              rw [hLit] at hiu
              cases hLiu : u.list_items with
              | some cu => rw [hLiu] at hiu; simp at hiu
              | none =>
                simp only [seedLi, hLit, hLiu]
                exact FlagsEq.fresh _ _
          have hE1 := foldPV_cong_of "" xs hcElem _ _ c1 d1 hseedE hI1 hI2
          refine FlagsEq.mk _ _ ?_ ?_ ?_ ?_ ?_ ?_ ?_ ?_ ?_ ?_
          · simpa [TypeInfo.allow_str, TypeInfo.setList] using e1
          · simpa [TypeInfo.allow_int, TypeInfo.setList] using e2
          · simpa [TypeInfo.allow_float, TypeInfo.setList] using e3
          · simpa [TypeInfo.allow_none, TypeInfo.setList] using e4
          · simpa [TypeInfo.allow_dict, TypeInfo.setList] using e5
          · simp [TypeInfo.allow_list, TypeInfo.setList]
          · simp
          · intro a b ha hb
            simp only [setItems_list_items, Option.some.injEq] at ha hb
            subst ha; subst hb
            exact hE1
          · intro k'
            simp only [setItems_dict_keys, TypeInfo.setList, updFl_dict_keys]
            exact h.keys_isSome k'
          · intro k' a b ha hb
            simp only [setItems_dict_keys, TypeInfo.setList, updFl_dict_keys]
              at ha hb
            exact h.keys_rel k' a b ha hb

theorem parseValue_cong (v : JValue) : CongAt v :=
  parseValue_cong_aux (sizeOf v + 1) v (by omega)

/-- The two merges of `a` and `b` at one position commute up to `FlagsEq`. -/
def CommAt (a b : JValue) : Prop :=
  ∀ (t : TypeInfo) (k : String) (t1 t2 u1 u2 : TypeInfo),
    parseValue a t k = .ok t1 → parseValue b t1 k = .ok t2 →
    parseValue b t k = .ok u1 → parseValue a u1 k = .ok u2 →
    FlagsEq t2 u2

theorem foldPV_append (k : String) (l1 l2 : List JValue) : ∀ (c : TypeInfo),
    foldPV k (l1 ++ l2) c = (foldPV k l1 c).bind (fun m => foldPV k l2 m) := by
  induction l1 with
  | nil => intro c; rfl
  | cons x rest ih =>
    intro c
    simp only [List.cons_append, foldPV]
    cases parseValue x c k with
    | error e => rfl
    | ok c1 => exact ih c1

theorem elemCong (k : String) (vs : List JValue) :
    ∀ x ∈ vs, ∀ (c d c' d' : TypeInfo), FlagsEq c d →
      parseValue x c k = .ok c' → parseValue x d k = .ok d' → FlagsEq c' d' :=
  fun x _ c d c' d' h ha hb => parseValue_cong x c d k c' d' h ha hb

/-- Bubbling one merge across a fold: merging `x` before or after a list of
values yields related descriptors. -/
theorem foldPV_bubble (k : String) (x : JValue) (ys : List JValue)
    (hcomm : ∀ y ∈ ys, CommAt x y) (hnox : noOther x = true)
    (hnoy : ∀ y ∈ ys, noOther y = true) :
    ∀ (c c1 d1 r1 r2 : TypeInfo),
      parseValue x c k = .ok c1 → foldPV k ys c1 = .ok r1 →
      foldPV k ys c = .ok d1 → parseValue x d1 k = .ok r2 →
      FlagsEq r1 r2 := by
  induction ys with
  | nil =>
    intro c c1 d1 r1 r2 hx hf1 hf2 hr2
    simp only [foldPV, Except.ok.injEq] at hf1 hf2
    subst hf1
    subst hf2
    rw [hx] at hr2
    simp only [Except.ok.injEq] at hr2
    subst hr2
    exact FlagsEq.refl _
  | cons y ys' ih =>
    intro c c1 d1 r1 r2 hx hf1 hf2 hr2
    simp only [foldPV] at hf1 hf2
    cases hE1 : parseValue y c1 k with
    | error e => rw [hE1] at hf1; simp at hf1
    | ok e1 =>
      rw [hE1] at hf1
      cases hF1 : parseValue y c k with
      | error e => rw [hF1] at hf2; simp at hf2
      | ok f1 =>
        rw [hF1] at hf2
        obtain ⟨g1, hg1⟩ := parseValue_total x f1 k hnox
        have hEe1g1 : FlagsEq e1 g1 :=
          hcomm y (by simp) c k c1 e1 f1 g1 hx hE1 hF1 hg1
        obtain ⟨w, hw⟩ := foldPV_total k ys'
          (fun z hz => hnoy z (by simp [hz])) g1
        have hIH := ih (fun z hz => hcomm z (by simp [hz]))
          (fun z hz => hnoy z (by simp [hz])) f1 g1 d1 w r2 hg1 hw hf2 hr2
        have hcong := foldPV_cong_of k ys' (elemCong k ys') e1 g1 r1 w
          hEe1g1 hf1 hw
        exact hcong.trans _ hIH

/-- Merging the value sequence `as ++ bs` or `bs ++ as` into the same child
yields related descriptors, given pairwise commutation. -/
theorem foldPV_swap (k : String) (as bs : List JValue)
    (hcomm : ∀ x ∈ as, ∀ y ∈ bs, CommAt x y)
    (hnoa : ∀ x ∈ as, noOther x = true)
    (hnob : ∀ y ∈ bs, noOther y = true) :
    ∀ (c r1 r2 : TypeInfo), foldPV k (as ++ bs) c = .ok r1 →
      foldPV k (bs ++ as) c = .ok r2 → FlagsEq r1 r2 := by
  induction as with
  | nil =>
    intro c r1 r2 h1 h2
    simp only [List.nil_append, List.append_nil] at h1 h2
    rw [h1] at h2
    simp only [Except.ok.injEq] at h2
    subst h2
    exact FlagsEq.refl _
  | cons x as' ih =>
    intro c r1 r2 h1 h2
    simp only [List.cons_append, foldPV] at h1
    cases hx : parseValue x c k with
    | error e => rw [hx] at h1; simp at h1
    | ok c1 =>
      rw [hx] at h1
      rw [foldPV_append] at h2
      cases hbs : foldPV k bs c with
      | error e => rw [hbs] at h2; simp [Except.bind] at h2
      | ok d1 =>
        rw [hbs] at h2
        simp only [Except.bind] at h2
        simp only [foldPV] at h2
        cases hxd : parseValue x d1 k with
        | error e => rw [hxd] at h2; simp at h2
        | ok d2 =>
          rw [hxd] at h2
          obtain ⟨w1, hw1⟩ := foldPV_total k bs hnob c1
          have hbub : FlagsEq w1 d2 :=
            foldPV_bubble k x bs (fun y hy => hcomm x (by simp) y hy)
              (parseValue_ok_noOther x c k c1 hx) hnob c c1 d1 w1 d2 hx hw1
              hbs hxd
          obtain ⟨w2, hw2⟩ := foldPV_total k as'
            (fun z hz => hnoa z (by simp [hz])) w1
          have hIH : FlagsEq r1 w2 := by
            refine ih (fun z hz y hy => hcomm z (by simp [hz]) y hy)
              (fun z hz => hnoa z (by simp [hz])) c1 r1 w2 h1 ?_
            rw [foldPV_append, hw1]
            simpa [Except.bind] using hw2
          have hcong := foldPV_cong_of k as' (elemCong k as') w1 d2 w2 r2
            hbub hw2 h2
          exact hIH.trans _ hcong

theorem valuesFor_nil_of_not_mem (k : String) (es : List (String × JValue))
    (h : k ∉ sampleKeys es) : valuesFor k es = [] := by
  induction es with
  | nil => rfl
  | cons kv rest ih =>
    obtain ⟨k1, v⟩ := kv
    rw [sampleKeys_cons] at h
    simp only [List.mem_cons] at h
    push_neg at h
    have hne : k1 ≠ k := fun hh => h.1 hh.symm
    simp only [valuesFor, if_neg hne]
    exact ih h.2

theorem setOpt_idem (t : TypeInfo) :
    t.setOptional.setOptional = t.setOptional := by cases t; rfl

theorem foldPV_setOpt (k : String) (vs : List JValue) (c : TypeInfo) :
    foldPV k vs c.setOptional = (foldPV k vs c).map TypeInfo.setOptional := by
  rw [setOptional_eq_updFl, foldPV_updFl _ flagUpdOK_optional]
  rfl

theorem FlagsEq.of_fl_li {t u : TypeInfo} (hfl : t.fl = u.fl)
    (hli : t.list_items = u.list_items)
    (hsome : ∀ k, (lookupTI t.dict_keys k).isSome =
      (lookupTI u.dict_keys k).isSome)
    (hrel : ∀ k a b, lookupTI t.dict_keys k = some a →
      lookupTI u.dict_keys k = some b → FlagsEq a b) : FlagsEq t u := by
  refine FlagsEq.mk _ _ ?_ ?_ ?_ ?_ ?_ ?_ ?_ ?_ hsome hrel
  · simp [TypeInfo.allow_str, hfl]
  · simp [TypeInfo.allow_int, hfl]
  · simp [TypeInfo.allow_float, hfl]
  · simp [TypeInfo.allow_none, hfl]
  · simp [TypeInfo.allow_dict, hfl]
  · simp [TypeInfo.allow_list, hfl]
  · rw [hli]
  · intro a b ha hb
    rw [hli] at ha
    rw [ha] at hb
    cases hb
    exact FlagsEq.refl _

/-- Two `parse_dict` merges of different samples into one descriptor commute
up to `FlagsEq`, provided the per-key value merges commute pairwise. -/
theorem parse_dict_comm (e1 e2 : List (String × JValue))
    (t t1 t2 u1 u2 : TypeInfo)
    (hcomm : ∀ k, ∀ x ∈ valuesFor k e1, ∀ y ∈ valuesFor k e2, CommAt x y)
    (h1 : parse_dict e1 t = .ok t1) (h2 : parse_dict e2 t1 = .ok t2)
    (h3 : parse_dict e2 t = .ok u1) (h4 : parse_dict e1 u1 = .ok u2) :
    FlagsEq t2 u2 := by
  obtain ⟨F1a, F1b⟩ := parse_dict_frame e1 t t1 h1
  obtain ⟨F2a, F2b⟩ := parse_dict_frame e2 t1 t2 h2
  obtain ⟨F3a, F3b⟩ := parse_dict_frame e2 t u1 h3
  obtain ⟨F4a, F4b⟩ := parse_dict_frame e1 u1 u2 h4
  have hu1name : u1.name = t.name := by simp [TypeInfo.name, F3a]
  have ht1name : t1.name = t.name := by simp [TypeInfo.name, F1a]
  have hmain : ∀ k : String,
      ((lookupTI t2.dict_keys k).isSome = (lookupTI u2.dict_keys k).isSome) ∧
      (∀ a b, lookupTI t2.dict_keys k = some a →
        lookupTI u2.dict_keys k = some b → FlagsEq a b) := by
    intro k
    have hC1 := parse_dict_char e1 t t1 h1 k
    have hC2 := parse_dict_char e2 t1 t2 h2 k
    have hC3 := parse_dict_char e2 t u1 h3 k
    have hC4 := parse_dict_char e1 u1 u2 h4 k
    revert hC2 hC4
    cases hL : lookupTI t.dict_keys k with
    | some c0 =>
      simp only [seedFor, hL] at hC1 hC3
      obtain ⟨cA, hfA, hlA⟩ := hC1
      obtain ⟨cB, hfB, hlB⟩ := hC3
      intro hC2 hC4
      by_cases mA : k ∈ sampleKeys e1 <;> by_cases mB : k ∈ sampleKeys e2
      · -- present in both samples: genuine reorder of the two value folds
        rw [if_pos mA] at hlA
        rw [if_pos mB] at hlB
        simp only [seedFor, hlA] at hC2
        simp only [seedFor, hlB] at hC4
        obtain ⟨cAB, hfAB, hlAB⟩ := hC2
        obtain ⟨cBA, hfBA, hlBA⟩ := hC4
        rw [if_pos mB] at hlAB
        rw [if_pos mA] at hlBA
        have hswap : FlagsEq cAB cBA := by
          refine foldPV_swap k (valuesFor k e1) (valuesFor k e2)
            (hcomm k) (foldPV_ok_noOther k _ _ _ hfA)
            (foldPV_ok_noOther k _ _ _ hfB) c0 cAB cBA ?_ ?_
          · rw [foldPV_append, hfA]
            simpa [Except.bind] using hfAB
          · rw [foldPV_append, hfB]
            simpa [Except.bind] using hfBA
        refine ⟨by simp [hlAB, hlBA], ?_⟩
        intro a b ha hb
        rw [hlAB] at ha
        rw [hlBA] at hb
        injection ha with ha'
        injection hb with hb'
        subst ha'
        subst hb'
        exact hswap
      · -- k only in the first sample
        rw [if_pos mA] at hlA
        rw [if_neg mB] at hlB
        have hBnil := valuesFor_nil_of_not_mem k e2 mB
        rw [hBnil] at hfB
        simp only [foldPV, Except.ok.injEq] at hfB
        subst hfB
        simp only [seedFor, hlA] at hC2
        simp only [seedFor, hlB] at hC4
        obtain ⟨cAB, hfAB, hlAB⟩ := hC2
        obtain ⟨cBA, hfBA, hlBA⟩ := hC4
        rw [hBnil] at hfAB
        simp only [foldPV, Except.ok.injEq] at hfAB
        subst hfAB
        rw [if_neg mB] at hlAB
        rw [if_pos mA] at hlBA
        rw [foldPV_setOpt, hfA] at hfBA
        simp only [Except.map, Except.ok.injEq] at hfBA
        subst hfBA
        refine ⟨by simp [hlAB, hlBA], ?_⟩
        intro a b ha hb
        rw [hlAB] at ha
        rw [hlBA] at hb
        injection ha with ha'
        injection hb with hb'
        subst ha'
        subst hb'
        exact FlagsEq.refl _
      · -- k only in the second sample
        rw [if_neg mA] at hlA
        rw [if_pos mB] at hlB
        have hAnil := valuesFor_nil_of_not_mem k e1 mA
        rw [hAnil] at hfA
        simp only [foldPV, Except.ok.injEq] at hfA
        subst hfA
        simp only [seedFor, hlA] at hC2
        simp only [seedFor, hlB] at hC4
        obtain ⟨cAB, hfAB, hlAB⟩ := hC2
        obtain ⟨cBA, hfBA, hlBA⟩ := hC4
        rw [hAnil] at hfBA
        simp only [foldPV, Except.ok.injEq] at hfBA
        subst hfBA
        rw [if_pos mB] at hlAB
        rw [if_neg mA] at hlBA
        rw [foldPV_setOpt, hfB] at hfAB
        simp only [Except.map, Except.ok.injEq] at hfAB
        subst hfAB
        refine ⟨by simp [hlAB, hlBA], ?_⟩
        intro a b ha hb
        rw [hlAB] at ha
        rw [hlBA] at hb
        injection ha with ha'
        injection hb with hb'
        subst ha'
        subst hb'
        exact FlagsEq.refl _
      · -- k in neither sample: optional marked twice, same result
        rw [if_neg mA] at hlA
        rw [if_neg mB] at hlB
        have hAnil := valuesFor_nil_of_not_mem k e1 mA
        have hBnil := valuesFor_nil_of_not_mem k e2 mB
        rw [hAnil] at hfA
        rw [hBnil] at hfB
        simp only [foldPV, Except.ok.injEq] at hfA hfB
        subst hfA
        subst hfB
        simp only [seedFor, hlA] at hC2
        simp only [seedFor, hlB] at hC4
        obtain ⟨cAB, hfAB, hlAB⟩ := hC2
        obtain ⟨cBA, hfBA, hlBA⟩ := hC4
        rw [hBnil] at hfAB
        rw [hAnil] at hfBA
        simp only [foldPV, Except.ok.injEq] at hfAB hfBA
        subst hfAB
        subst hfBA
        rw [if_neg mB] at hlAB
        rw [if_neg mA] at hlBA
        rw [setOpt_idem] at hlAB hlBA
        refine ⟨by simp [hlAB, hlBA], ?_⟩
        intro a b ha hb
        rw [hlAB] at ha
        rw [hlBA] at hb
        injection ha with ha'
        injection hb with hb'
        subst ha'
        subst hb'
        exact FlagsEq.refl _
    | none =>
      simp only [seedFor, hL] at hC1 hC3
      by_cases mA : k ∈ sampleKeys e1 <;> by_cases mB : k ∈ sampleKeys e2
      · -- fresh child created by either sample, value folds reordered
        rw [if_pos mA] at hC1
        rw [if_pos mB] at hC3
        obtain ⟨cA, hfA, hlA⟩ := hC1
        obtain ⟨cB, hfB, hlB⟩ := hC3
        intro hC2 hC4
        rw [if_pos mA] at hlA
        rw [if_pos mB] at hlB
        simp only [seedFor, hlA] at hC2
        simp only [seedFor, hlB] at hC4
        obtain ⟨cAB, hfAB, hlAB⟩ := hC2
        obtain ⟨cBA, hfBA, hlBA⟩ := hC4
        rw [if_pos mB] at hlAB
        rw [if_pos mA] at hlBA
        have hswap : FlagsEq cAB cBA := by
          refine foldPV_swap k (valuesFor k e1) (valuesFor k e2)
            (hcomm k) (foldPV_ok_noOther k _ _ _ hfA)
            (foldPV_ok_noOther k _ _ _ hfB)
            (TypeInfo.mkNamed (t.name ++ to_pascal_case k)) cAB cBA ?_ ?_
          · rw [foldPV_append, hfA]
            simpa [Except.bind] using hfAB
          · rw [foldPV_append, hfB]
            simpa [Except.bind] using hfBA
        refine ⟨by simp [hlAB, hlBA], ?_⟩
        intro a b ha hb
        rw [hlAB] at ha
        rw [hlBA] at hb
        injection ha with ha'
        injection hb with hb'
        subst ha'
        subst hb'
        exact hswap
      · -- fresh child created by sample one only; sample two marks it optional
        rw [if_pos mA] at hC1
        rw [if_neg mB] at hC3
        obtain ⟨cA, hfA, hlA⟩ := hC1
        intro hC2 hC4
        rw [if_pos mA] at hlA
        simp only [seedFor, hlA] at hC2
        simp only [seedFor, hC3] at hC4
        obtain ⟨cAB, hfAB, hlAB⟩ := hC2
        rw [if_pos mA] at hC4
        obtain ⟨cBA, hfBA, hlBA⟩ := hC4
        have hBnil := valuesFor_nil_of_not_mem k e2 mB
        rw [hBnil] at hfAB
        simp only [foldPV, Except.ok.injEq] at hfAB
        subst hfAB
        rw [if_neg mB] at hlAB
        rw [if_pos mA] at hlBA
        rw [hu1name, hfA] at hfBA
        simp only [Except.ok.injEq] at hfBA
        subst hfBA
        refine ⟨by simp [hlAB, hlBA], ?_⟩
        intro a b ha hb
        rw [hlAB] at ha
        rw [hlBA] at hb
        injection ha with ha'
        injection hb with hb'
        subst ha'
        subst hb'
        exact (FlagsEq.refl _).setOpt_left
      · -- fresh child created by sample two only; sample one marks it optional
        rw [if_neg mA] at hC1
        rw [if_pos mB] at hC3
        obtain ⟨cB, hfB, hlB⟩ := hC3
        intro hC2 hC4
        rw [if_pos mB] at hlB
        simp only [seedFor, hC1] at hC2
        simp only [seedFor, hlB] at hC4
        rw [if_pos mB, ht1name] at hC2
        obtain ⟨cAB, hfAB, hlAB⟩ := hC2
        obtain ⟨cBA, hfBA, hlBA⟩ := hC4
        have hAnil := valuesFor_nil_of_not_mem k e1 mA
        rw [hAnil] at hfBA
        simp only [foldPV, Except.ok.injEq] at hfBA
        subst hfBA
        rw [if_pos mB] at hlAB
        rw [if_neg mA] at hlBA
        rw [hfB] at hfAB
        simp only [Except.ok.injEq] at hfAB
        subst hfAB
        refine ⟨by simp [hlAB, hlBA], ?_⟩
        intro a b ha hb
        rw [hlAB] at ha
        rw [hlBA] at hb
        injection ha with ha'
        injection hb with hb'
        subst ha'
        subst hb'
        exact (FlagsEq.refl _).setOpt_right
      · -- in neither: the key never exists
        rw [if_neg mA] at hC1
        rw [if_neg mB] at hC3
        intro hC2 hC4
        simp only [seedFor, hC1] at hC2
        simp only [seedFor, hC3] at hC4
        rw [if_neg mB] at hC2
        rw [if_neg mA] at hC4
        refine ⟨by simp [hC2, hC4], ?_⟩
        intro a b ha hb
        rw [hC2] at ha
        exact absurd ha (by simp)
  exact FlagsEq.of_fl_li (by rw [F2a, F1a, F4a, F3a])
    (by rw [F2b, F1b, F4b, F3b])
    (fun k => (hmain k).1) (fun k => (hmain k).2)

theorem commAt_symm {a b : JValue} (h : CommAt a b) : CommAt b a :=
  fun t k t1 t2 u1 u2 h1 h2 h3 h4 => (h t k u1 u2 t1 t2 h3 h4 h1 h2).symm

theorem FlagsEq.of_fl_keys {t u : TypeInfo} (hfl : t.fl = u.fl)
    (hsome : t.list_items.isSome = u.list_items.isSome)
    (hitems : ∀ a b, t.list_items = some a → u.list_items = some b →
      FlagsEq a b)
    (hkeys : t.dict_keys = u.dict_keys) : FlagsEq t u := by
  refine FlagsEq.mk _ _ ?_ ?_ ?_ ?_ ?_ ?_ hsome hitems ?_ ?_
  · simp [TypeInfo.allow_str, hfl]
  · simp [TypeInfo.allow_int, hfl]
  · simp [TypeInfo.allow_float, hfl]
  · simp [TypeInfo.allow_none, hfl]
  · simp [TypeInfo.allow_dict, hfl]
  · simp [TypeInfo.allow_list, hfl]
  · intro k
    rw [hkeys]
  · intro k a b ha hb
    rw [hkeys] at ha
    rw [ha] at hb
    cases hb
    exact FlagsEq.refl _

theorem flagUpdOK_str : flagUpdOK (fun f => { f with allow_str := true }) :=
  ⟨fun _ => rfl, fun _ => rfl, fun _ => rfl, fun _ => rfl, fun _ => rfl,
   fun _ => rfl, fun _ => rfl⟩

theorem flagUpdOK_int : flagUpdOK (fun f => { f with allow_int := true }) :=
  ⟨fun _ => rfl, fun _ => rfl, fun _ => rfl, fun _ => rfl, fun _ => rfl,
   fun _ => rfl, fun _ => rfl⟩

theorem flagUpdOK_float : flagUpdOK (fun f => { f with allow_float := true }) :=
  ⟨fun _ => rfl, fun _ => rfl, fun _ => rfl, fun _ => rfl, fun _ => rfl,
   fun _ => rfl, fun _ => rfl⟩

theorem flagUpdOK_none : flagUpdOK (fun f => { f with allow_none := true }) :=
  ⟨fun _ => rfl, fun _ => rfl, fun _ => rfl, fun _ => rfl, fun _ => rfl,
   fun _ => rfl, fun _ => rfl⟩

theorem flagUpdOK_list : flagUpdOK (fun f => { f with allow_list := true }) :=
  ⟨fun _ => rfl, fun _ => rfl, fun _ => rfl, fun _ => rfl, fun _ => rfl,
   fun _ => rfl, fun _ => rfl⟩

/-- A merge that is a pure flat-flag update commutes with any other merge. -/
theorem scalar_comm (a b : JValue) (g : TIFlags → TIFlags) (hOK : flagUpdOK g)
    (hpa : ∀ (t : TypeInfo) (k : String), parseValue a t k = .ok (t.updFl g)) :
    CommAt a b := by
  intro t k t1 t2 u1 u2 h1 h2 h3 h4
  rw [hpa t k] at h1
  injection h1 with h1'
  subst h1'
  rw [parseValue_updFl g hOK, h3] at h2
  simp only [Except.map, Except.ok.injEq] at h2
  subst h2
  rw [hpa u1 k] at h4
  injection h4 with h4'
  subst h4'
  exact FlagsEq.refl _

theorem setDict_of_allow {t : TypeInfo} (h : t.allow_dict = true) :
    t.setDict = t := by
  cases t with
  | node f li dk =>
    simp only [TypeInfo.allow_dict, TypeInfo.fl] at h
    simp only [TypeInfo.setDict, TypeInfo.updFl]
    cases f
    simp_all

theorem allow_dict_setDict (t : TypeInfo) : (t.setDict).allow_dict = true := by
  cases t with
  | node f li dk => rfl

/-- Merging an object and merging an array into the same descriptor yield
literally the same result in either order. -/
theorem dict_list_comm (es : List (String × JValue)) (xs : List JValue) :
    CommAt (.jdict es) (.jlist xs) := by
  intro t k t1 t2 u1 u2 h1 h2 h3 h4
  rw [pv_dict_eq] at h1 h4
  rw [pv_list_eq] at h2 h3
  obtain ⟨F1a, F1b⟩ := parse_dict_frame es t.setDict t1 h1
  have hli1 : t1.list_items = t.list_items := by
    rw [F1b]
    simp [TypeInfo.setDict]
  have hname1 : t1.name = t.name := by
    simp [TypeInfo.name, F1a, TypeInfo.setDict, TypeInfo.updFl]
    cases t
    rfl
  have hseed : seedLi t1 k = seedLi t k := by
    simp only [seedLi, hli1, hname1]
  cases hP : parseItems xs (seedLi t k) with
  | error e =>
    rw [hP] at h3
    exact absurd h3 (by simp)
  | ok c1 =>
    rw [hP] at h3
    simp only [Except.ok.injEq] at h3
    subst h3
    rw [hseed, hP] at h2
    simp only [Except.ok.injEq] at h2
    subst h2
    have hdep := parse_dict_dep es t.setDict
      ((((t.setList).setItems (some c1))).setDict) t1 h1
      (by
        cases t
        simp [TypeInfo.name, TypeInfo.setDict, TypeInfo.setList,
          TypeInfo.updFl, TypeInfo.setItems])
      (by simp [TypeInfo.setDict, TypeInfo.setList])
    rw [hdep] at h4
    simp only [Except.ok.injEq] at h4
    subst h4
    have heq : (t1.setList).setItems (some c1) =
        ((((t.setList).setItems (some c1))).setDict).setKeys t1.dict_keys := by
      apply TypeInfo.ext
      · simp only [setItems_fl, setKeys_fl, TypeInfo.setList, TypeInfo.setDict,
          updFl_fl, F1a]
      · simp [TypeInfo.setList, TypeInfo.setDict]
      · simp [TypeInfo.setList, TypeInfo.setDict]
    rw [heq]
    exact FlagsEq.refl _

theorem commAt_aux : ∀ n : Nat, ∀ a b : JValue,
    sizeOf a + sizeOf b < n → CommAt a b := by
  intro n
  induction n using Nat.strong_induction_on with
  | _ n ih =>
    intro a b hsz
    cases a with
    | jstr s => exact scalar_comm _ b _ flagUpdOK_str (fun _ _ => rfl)
    | jbool v => exact scalar_comm _ b _ flagUpdOK_int (fun _ _ => rfl)
    | jint m => exact scalar_comm _ b _ flagUpdOK_int (fun _ _ => rfl)
    | jfloat => exact scalar_comm _ b _ flagUpdOK_float (fun _ _ => rfl)
    | jnull => exact scalar_comm _ b _ flagUpdOK_none (fun _ _ => rfl)
    | jother s =>
      intro t k t1 t2 u1 u2 h1 _ _ _
      exact absurd h1 (by simp [parseValue])
    | jdict e1 =>
      cases b with
      | jstr s =>
        exact commAt_symm (scalar_comm (.jstr s) (.jdict e1) _ flagUpdOK_str
          (fun _ _ => rfl))
      | jbool v =>
        exact commAt_symm (scalar_comm (.jbool v) (.jdict e1) _ flagUpdOK_int
          (fun _ _ => rfl))
      | jint m =>
        exact commAt_symm (scalar_comm (.jint m) (.jdict e1) _ flagUpdOK_int
          (fun _ _ => rfl))
      | jfloat =>
        exact commAt_symm (scalar_comm .jfloat (.jdict e1) _ flagUpdOK_float
          (fun _ _ => rfl))
      | jnull =>
        exact commAt_symm (scalar_comm .jnull (.jdict e1) _ flagUpdOK_none
          (fun _ _ => rfl))
      | jother s =>
        intro t k t1 t2 u1 u2 _ _ h3 _
        exact absurd h3 (by simp [parseValue])
      | jlist xs => exact dict_list_comm e1 xs
      | jdict e2 =>
        intro t k t1 t2 u1 u2 h1 h2 h3 h4
        rw [pv_dict_eq] at h1 h2 h3 h4
        obtain ⟨F1a, _⟩ := parse_dict_frame e1 t.setDict t1 h1
        obtain ⟨F3a, _⟩ := parse_dict_frame e2 t.setDict u1 h3
        have ht1d : t1.allow_dict = true := by
          simp only [TypeInfo.allow_dict, F1a]
          exact allow_dict_setDict t
        have hu1d : u1.allow_dict = true := by
          simp only [TypeInfo.allow_dict, F3a]
          exact allow_dict_setDict t
        rw [setDict_of_allow ht1d] at h2
        rw [setDict_of_allow hu1d] at h4
        refine parse_dict_comm e1 e2 t.setDict t1 t2 u1 u2 ?_ h1 h2 h3 h4
        intro k' x hx y hy
        have hx' := sizeOf_valuesFor_mem k' e1 x hx
        have hy' := sizeOf_valuesFor_mem k' e2 y hy
        have hs1 := sizeOf_jdict_entries e1
        have hs2 := sizeOf_jdict_entries e2
        exact ih (sizeOf x + sizeOf y + 1) (by omega) x y (by omega)
    | jlist xs =>
      cases b with
      | jstr s =>
        exact commAt_symm (scalar_comm (.jstr s) (.jlist xs) _ flagUpdOK_str
          (fun _ _ => rfl))
      | jbool v =>
        exact commAt_symm (scalar_comm (.jbool v) (.jlist xs) _ flagUpdOK_int
          (fun _ _ => rfl))
      | jint m =>
        exact commAt_symm (scalar_comm (.jint m) (.jlist xs) _ flagUpdOK_int
          (fun _ _ => rfl))
      | jfloat =>
        exact commAt_symm (scalar_comm .jfloat (.jlist xs) _ flagUpdOK_float
          (fun _ _ => rfl))
      | jnull =>
        exact commAt_symm (scalar_comm .jnull (.jlist xs) _ flagUpdOK_none
          (fun _ _ => rfl))
      | jother s =>
        intro t k t1 t2 u1 u2 _ _ h3 _
        exact absurd h3 (by simp [parseValue])
      | jdict e2 => exact commAt_symm (dict_list_comm e2 xs)
      | jlist ys =>
        intro t k t1 t2 u1 u2 h1 h2 h3 h4
        rw [pv_list_eq] at h1 h2 h3 h4
        cases hP1 : parseItems xs (seedLi t k) with
        | error e => rw [hP1] at h1; exact absurd h1 (by simp)
        | ok c1 =>
          rw [hP1] at h1
          simp only [Except.ok.injEq] at h1
          subst h1
          have hs1 : seedLi ((t.setList).setItems (some c1)) k = c1 := by
            simp [seedLi]
          rw [hs1] at h2
          cases hP2 : parseItems ys c1 with
          | error e => rw [hP2] at h2; exact absurd h2 (by simp)
          | ok c2 =>
            rw [hP2] at h2
            simp only [Except.ok.injEq] at h2
            subst h2
            cases hP3 : parseItems ys (seedLi t k) with
            | error e => rw [hP3] at h3; exact absurd h3 (by simp)
            | ok d1 =>
              rw [hP3] at h3
              simp only [Except.ok.injEq] at h3
              subst h3
              have hs2 : seedLi ((t.setList).setItems (some d1)) k = d1 := by
                simp [seedLi]
              rw [hs2] at h4
              cases hP4 : parseItems xs d1 with
              | error e => rw [hP4] at h4; exact absurd h4 (by simp)
              | ok d2 =>
                rw [hP4] at h4
                simp only [Except.ok.injEq] at h4
                subst h4
                have e1 : foldPV "" (xs ++ ys) (seedLi t k) = .ok c2 := by
                  rw [foldPV_append, ← parseItems_eq_foldPV xs, hP1]
                  simp only [Except.bind]
                  rw [← parseItems_eq_foldPV ys, hP2]
                have e2 : foldPV "" (ys ++ xs) (seedLi t k) = .ok d2 := by
                  rw [foldPV_append, ← parseItems_eq_foldPV ys, hP3]
                  simp only [Except.bind]
                  rw [← parseItems_eq_foldPV xs, hP4]
                have hnoxs : ∀ x ∈ xs, noOther x = true := by
                  refine foldPV_ok_noOther "" xs (seedLi t k) c1 ?_
                  rw [← parseItems_eq_foldPV xs]
                  exact hP1
                have hnoys : ∀ y ∈ ys, noOther y = true := by
                  refine foldPV_ok_noOther "" ys (seedLi t k) d1 ?_
                  rw [← parseItems_eq_foldPV ys]
                  exact hP3
                have hcomm : ∀ x ∈ xs, ∀ y ∈ ys, CommAt x y := by
                  intro x hx y hy
                  have hx' := List.sizeOf_lt_of_mem hx
                  have hy' := List.sizeOf_lt_of_mem hy
                  have hq1 := sizeOf_jlist_elems xs
                  have hq2 := sizeOf_jlist_elems ys
                  exact ih (sizeOf x + sizeOf y + 1) (by omega) x y (by omega)
                have hswap : FlagsEq c2 d2 :=
                  foldPV_swap "" xs ys hcomm hnoxs hnoys
                    (seedLi t k) c2 d2 e1 e2
                refine FlagsEq.of_fl_keys ?_ ?_ ?_ ?_
                · simp [TypeInfo.setList]
                · simp
                · intro a b ha hb
                  simp only [setItems_list_items] at ha hb
                  injection ha with ha'
                  injection hb with hb'
                  subst ha'
                  subst hb'
                  exact hswap
                · simp [TypeInfo.setList]

/-- Any two value merges commute up to `FlagsEq`. -/
theorem parseValue_comm (a b : JValue) : CommAt a b :=
  commAt_aux (sizeOf a + sizeOf b + 1) a b (by omega)

theorem exceptBind_ok {α β γ : Type} {x : Except α β} {f : β → Except α γ}
    {r : γ} (h : x.bind f = .ok r) : ∃ m, x = .ok m ∧ f m = .ok r := by
  cases x with
  | error e => simp [Except.bind] at h
  | ok m => exact ⟨m, rfl, by simpa [Except.bind] using h⟩

theorem parse_list_updFl (g : TIFlags → TIFlags) (hOK : flagUpdOK g)
    (xs : List JValue) (t : TypeInfo) :
    parse_list xs (t.updFl g) = (parse_list xs t).map (TypeInfo.updFl g) := by
  cases xs with
  | nil =>
    simp only [parse_list, List.isEmpty_nil, if_true, Except.map]
    have : ((t.updFl g)).setList = ((t.setList)).updFl g := by
      simp only [TypeInfo.setList, updFl_comp]
      exact updFl_congr t _ _ (fun f => (hOK.2.2.2.2.2.2 f).symm)
    rw [this]
  | cons x rest =>
    simp only [parse_list, List.isEmpty_cons, if_false, updFl_list_items,
      updFl_name g hOK]
    cases hP : parseItems (x :: rest)
        (match t.list_items with
         | some c => c
         | none => TypeInfo.mkNamed (t.name ++ "Item")) with
    | error e => rfl
    | ok c1 =>
      simp only [Except.map]
      rw [← updFl_setItems]
      simp

/-- At the root (where `parse_dict` does not set `allow_dict` and
`parse_list` handles the list itself), merging an object sample and a list
sample commutes exactly. -/
theorem root_dict_list (es : List (String × JValue)) (xs : List JValue)
    (t t1 tab u1 tba : TypeInfo)
    (ha1 : parse_dict es t = .ok t1) (hb1 : parse_list xs t1 = .ok tab)
    (hb2 : parse_list xs t = .ok u1) (ha2 : parse_dict es u1 = .ok tba) :
    tab = tba := by
  obtain ⟨F1a, F1b⟩ := parse_dict_frame es t t1 ha1
  have hname1 : t1.name = t.name := by simp [TypeInfo.name, F1a]
  cases xs with
  | nil =>
    simp only [parse_list, List.isEmpty_nil, if_true, Except.ok.injEq]
      at hb1 hb2
    subst hb1
    subst hb2
    rw [show t.setList = t.updFl (fun f => { f with allow_list := true })
      from rfl, parse_dict_updFl _ flagUpdOK_list, ha1] at ha2
    simp only [Except.map, Except.ok.injEq] at ha2
    subst ha2
    rfl
  | cons x rest =>
    simp only [parse_list, List.isEmpty_cons, Bool.false_eq_true, if_false]
      at hb1 hb2
    rw [F1b, hname1] at hb1
    cases hP : parseItems (x :: rest)
        (match t.list_items with
         | some c => c
         | none => TypeInfo.mkNamed (t.name ++ "Item")) with
    | error e =>
      rw [hP] at hb2
      simp at hb2
    | ok c1 =>
      rw [hP] at hb1 hb2
      simp only [Except.ok.injEq] at hb1 hb2
      subst hb1
      subst hb2
      have hdep := parse_dict_dep es t (t.setItems (some c1)) t1 ha1
        (by simp [TypeInfo.name]) (by simp)
      rw [hdep] at ha2
      simp only [Except.ok.injEq] at ha2
      subst ha2
      apply TypeInfo.ext
      · simp [F1a]
      · simp
      · simp

/-- Merging two root samples in either order into the same descriptor gives
flag-equivalent results. -/
theorem parse_comm (a b : JValue) (t tab tba : TypeInfo)
    (h1 : (parse a t).bind (parse b) = .ok tab)
    (h2 : (parse b t).bind (parse a) = .ok tba) :
    FlagsEq tab tba := by
  obtain ⟨t1, ha1, hb1⟩ := exceptBind_ok h1
  obtain ⟨u1, hb2, ha2⟩ := exceptBind_ok h2
  cases a with
  | jstr s => simp [parse] at ha1
  | jbool v => simp [parse] at ha1
  | jint m => simp [parse] at ha1
  | jfloat => simp [parse] at ha1
  | jnull => simp [parse] at ha1
  | jother s => simp [parse] at ha1
  | jdict e1 =>
    cases b with
    | jstr s => simp [parse] at hb2
    | jbool v => simp [parse] at hb2
    | jint m => simp [parse] at hb2
    | jfloat => simp [parse] at hb2
    | jnull => simp [parse] at hb2
    | jother s => simp [parse] at hb2
    | jdict e2 =>
      simp only [parse] at ha1 hb1 hb2 ha2
      exact parse_dict_comm e1 e2 t t1 tab u1 tba
        (fun k x _ y _ => parseValue_comm x y) ha1 hb1 hb2 ha2
    | jlist xs =>
      simp only [parse] at ha1 hb1 hb2 ha2
      rw [root_dict_list e1 xs t t1 tab u1 tba ha1 hb1 hb2 ha2]
      exact FlagsEq.refl _
  | jlist xs =>
    cases b with
    | jstr s => simp [parse] at hb2
    | jbool v => simp [parse] at hb2
    | jint m => simp [parse] at hb2
    | jfloat => simp [parse] at hb2
    | jnull => simp [parse] at hb2
    | jother s => simp [parse] at hb2
    | jdict e2 =>
      simp only [parse] at ha1 hb1 hb2 ha2
      rw [root_dict_list e2 xs t u1 tba t1 tab hb2 ha2 ha1 hb1]
      exact FlagsEq.refl _
    | jlist ys =>
      simp only [parse] at ha1 hb1 hb2 ha2
      cases xs with
      | nil =>
        simp only [parse_list, List.isEmpty_nil, if_true, Except.ok.injEq]
          at ha1
        subst ha1
        rw [show t.setList = t.updFl (fun f => { f with allow_list := true })
          from rfl, parse_list_updFl _ flagUpdOK_list, hb2] at hb1
        simp only [Except.map, Except.ok.injEq] at hb1
        subst hb1
        simp only [parse_list, List.isEmpty_nil, if_true, Except.ok.injEq]
          at ha2
        subst ha2
        exact FlagsEq.refl _
      | cons x xr =>
        cases ys with
        | nil =>
          simp only [parse_list, List.isEmpty_nil, if_true, Except.ok.injEq]
            at hb2
          subst hb2
          rw [show t.setList = t.updFl
            (fun f => { f with allow_list := true }) from rfl,
            parse_list_updFl _ flagUpdOK_list, ha1] at ha2
          simp only [Except.map, Except.ok.injEq] at ha2
          subst ha2
          simp only [parse_list, List.isEmpty_nil, if_true, Except.ok.injEq]
            at hb1
          subst hb1
          exact FlagsEq.refl _
        | cons y yr =>
          simp only [parse_list, List.isEmpty_cons, Bool.false_eq_true,
            if_false] at ha1 hb1 hb2 ha2
          cases hP1 : parseItems (x :: xr)
              (match t.list_items with
               | some c => c
               | none => TypeInfo.mkNamed (t.name ++ "Item")) with
          | error e => rw [hP1] at ha1; simp at ha1
          | ok c1 =>
            rw [hP1] at ha1
            simp only [Except.ok.injEq] at ha1
            subst ha1
            cases hP3 : parseItems (y :: yr)
                (match t.list_items with
                 | some c => c
                 | none => TypeInfo.mkNamed (t.name ++ "Item")) with
            | error e => rw [hP3] at hb2; simp at hb2
            | ok d1 =>
              rw [hP3] at hb2
              simp only [Except.ok.injEq] at hb2
              subst hb2
              simp only [setItems_list_items] at hb1 ha2
              cases hP2 : parseItems (y :: yr) c1 with
              | error e => rw [hP2] at hb1; simp at hb1
              | ok c2 =>
                rw [hP2] at hb1
                simp only [Except.ok.injEq] at hb1
                subst hb1
                cases hP4 : parseItems (x :: xr) d1 with
                | error e => rw [hP4] at ha2; simp at ha2
                | ok d2 =>
                  rw [hP4] at ha2
                  simp only [Except.ok.injEq] at ha2
                  subst ha2
                  have e1 : foldPV "" ((x :: xr) ++ (y :: yr))
                      (match t.list_items with
                       | some c => c
                       | none => TypeInfo.mkNamed (t.name ++ "Item")) =
                      .ok c2 := by
                    rw [foldPV_append, ← parseItems_eq_foldPV (x :: xr), hP1]
                    simp only [Except.bind]
                    rw [← parseItems_eq_foldPV (y :: yr), hP2]
                  have e2 : foldPV "" ((y :: yr) ++ (x :: xr))
                      (match t.list_items with
                       | some c => c
                       | none => TypeInfo.mkNamed (t.name ++ "Item")) =
                      .ok d2 := by
                    rw [foldPV_append, ← parseItems_eq_foldPV (y :: yr), hP3]
                    simp only [Except.bind]
                    rw [← parseItems_eq_foldPV (x :: xr), hP4]
                  have hnoxs : ∀ v ∈ x :: xr, noOther v = true := by
                    refine foldPV_ok_noOther "" (x :: xr)
                      (match t.list_items with
                       | some c => c
                       | none => TypeInfo.mkNamed (t.name ++ "Item")) c1 ?_
                    rw [← parseItems_eq_foldPV (x :: xr)]
                    exact hP1
                  have hnoys : ∀ v ∈ y :: yr, noOther v = true := by
                    refine foldPV_ok_noOther "" (y :: yr)
                      (match t.list_items with
                       | some c => c
                       | none => TypeInfo.mkNamed (t.name ++ "Item")) d1 ?_
                    rw [← parseItems_eq_foldPV (y :: yr)]
                    exact hP3
                  have hswap : FlagsEq c2 d2 :=
                    foldPV_swap "" (x :: xr) (y :: yr)
                      (fun v _ w _ => parseValue_comm v w) hnoxs hnoys
                      _ c2 d2 e1 e2
                  refine FlagsEq.of_fl_keys ?_ ?_ ?_ ?_
                  · simp
                  · simp
                  · intro p q hp hq
                    simp only [setItems_list_items] at hp hq
                    injection hp with hp'
                    injection hq with hq'
                    subst hp'
                    subst hq'
                    exact hswap
                  · simp

/-- C5: for any two samples merged in either order into independent fresh
descriptors, the resulting descriptor trees carry identical
allow_str/allow_int/allow_float/allow_none/allow_dict/allow_list flags at
every corresponding position (root, `list_items` chains, and `dict_keys`
children matched by key, regardless of insertion order). -/
theorem c5_merge_order_independent_flags (a b : JValue) (n : String)
    (tab tba : TypeInfo)
    (h1 : (parse a (TypeInfo.mkNamed n)).bind (parse b) = .ok tab)
    (h2 : (parse b (TypeInfo.mkNamed n)).bind (parse a) = .ok tba) :
    FlagsEq tab tba :=
  parse_comm a b (TypeInfo.mkNamed n) tab tba h1 h2

/-- C5 witness: an object sample and an array sample merged in both orders
produce flag-identical trees. -/
theorem c5_merge_order_independent_flags_witness :
    FlagsEq
      (extractTI ((parse (.jdict [("x", .jint 1)])
          (TypeInfo.mkNamed "Root")).bind (parse (.jlist [.jstr "s"]))))
      (extractTI ((parse (.jlist [.jstr "s"])
          (TypeInfo.mkNamed "Root")).bind (parse (.jdict [("x", .jint 1)])))) :=
  c5_merge_order_independent_flags (.jdict [("x", .jint 1)])
    (.jlist [.jstr "s"]) "Root" _ _ rfl rfl
